import Mathlib

/-!
# The tmd.go module bridge (`src/lib.go`)

A shallow embedding of the host side of the bridge: the wazero linear memory
primitives the bridge calls, the `fmt` verbs it uses, and the functions of
`lib.go` themselves (`wasmApi.call`, `readCString`, `writeData`, `readData`,
`SetInputTmd`, `makeGenOptionsData`, `GenerateHtml`, `Format`, ...).

Conventions.
* A byte is a `Fin 256`; a Go `string` or `[]byte` is a `List Byte`.
* A `uint32` is a `Nat` reduced `% 2^32` wherever Go arithmetic can wrap; an
  `int32` is an `Int` wrapped by `int32`.
* A Go `error` is the list of bytes of its text.
* The linear memory is the list of its bytes, at most `2^32` of them (65536
  pages).  `Memory.Size` returns a `uint32` as in wazero, so on a memory of
  exactly `2^32` bytes it wraps to `0`, and at the end of such a memory the
  `uint32` sum `offset + 4` wraps to `0`.  The theorems that assume a length
  below `2^32` say so; the last section evaluates `writeData`, `readData` and
  the composed call on the full memory.
* The WebAssembly module is not part of the embedding: an exported function is
  an arbitrary function from the memory to a raw result and a new memory.
-/

namespace Tmd

/-! ## Bytes and text -/

abbrev Byte := Fin 256

/-- The bytes of an ASCII string literal. -/
def ascii (s : String) : List Byte :=
  s.toList.map (fun c => ⟨c.toNat % 256, Nat.mod_lt _ (by decide)⟩)

/-- A Go `error`, represented by its text. -/
abbrev GoError := List Byte

/-- Outcome of a Go call that may return a value, return an error, or panic.
`diverges` stands for a loop that ran out of the fuel given to its model. -/
inductive Outcome (α : Type) where
  | ok (v : α)
  | error (e : GoError)
  | panic (msg : List Byte)
  | diverges
  deriving DecidableEq, Repr

/-! ## The `fmt` verbs used by `lib.go` -/

/-- An operand of a `fmt` call. -/
inductive Arg where
  | str (s : List Byte)
  | bytes (s : List Byte)
  | bool (b : Bool)
  | int (i : Int)
  deriving DecidableEq, Repr

/-- Decimal text of an integer, as `%d` prints it. -/
def decimal (i : Int) : List Byte := ascii (toString i)

/-- Go type name of an operand, as printed in a bad-verb report. -/
def Arg.typeName : Arg → List Byte
  | .str _ => ascii "string"
  | .bytes _ => ascii "[]uint8"
  | .bool _ => ascii "bool"
  | .int _ => ascii "int"

/-- Text of a byte slice under `%v` or `%d`: the decimal values between
brackets, separated by blanks. -/
def bracketed (s : List Byte) : List Byte :=
  ascii "[" ++ ((s.map (fun b => decimal b.val)).intersperse (ascii " ")).flatten ++ ascii "]"

/-- Text of an operand under `%v`. -/
def Arg.default : Arg → List Byte
  | .str s => s
  | .bytes s => bracketed s
  | .bool b => if b then ascii "true" else ascii "false"
  | .int i => decimal i

/-- Text of one operand under a verb: `%s` and `%v` print a string verbatim,
`%s` prints a byte slice verbatim while `%v` and `%d` print its values between
brackets, `%v` and `%t` print a boolean as `true` or `false`, `%d` and `%v`
print an integer in decimal.  These are the verbs of `lib.go`; for any other
pairing the model gives Go's bad-verb report `%!verb(type=value)`. -/
def formatArg (verb : Byte) (a : Arg) : List Byte :=
  let bad := ascii "%!" ++ [verb] ++ ascii "(" ++ a.typeName ++ ascii "=" ++ a.default ++ ascii ")"
  match a with
  | .str s => if verb = 115 ∨ verb = 118 then s else bad
  | .bytes s => if verb = 115 then s else if verb = 118 ∨ verb = 100 then bracketed s else bad
  | .bool b => if verb = 118 ∨ verb = 116 then (if b then ascii "true" else ascii "false") else bad
  | .int i => if verb = 100 ∨ verb = 118 then decimal i else bad

/-- Report of the operands left over after the format is consumed. -/
def extraArgs : List Arg → List Byte
  | [] => []
  | [a] => a.typeName ++ ascii "=" ++ a.default
  | a :: rest => a.typeName ++ ascii "=" ++ a.default ++ ascii ", " ++ extraArgs rest

/-- Model of `fmt.Sprintf` for formats without flags or widths: bytes other
than `%` are copied, `%%` prints `%`, and `%` followed by a verb consumes the
next operand. -/
def Sprintf : List Byte → List Arg → List Byte
  | [], [] => []
  | [], a :: rest => ascii "%!(EXTRA " ++ extraArgs (a :: rest) ++ ascii ")"
  | c :: fmt, args =>
    if c = 37 then
      match fmt with
      | [] => ascii "%!(NOVERB)" ++ Sprintf [] args
      | v :: fmt2 =>
        if v = 37 then 37 :: Sprintf fmt2 args
        else
          match args with
          | [] => ascii "%!" ++ [v] ++ ascii "(MISSING)" ++ Sprintf fmt2 []
          | a :: rest => formatArg v a ++ Sprintf fmt2 rest
    else c :: Sprintf fmt args

/-- Model of `fmt.Appendf`. -/
def Appendf (buf : List Byte) (format : List Byte) (args : List Arg) : List Byte :=
  buf ++ Sprintf format args

/-- Model of `fmt.Errorf`: the error whose text is the formatted string. -/
def Errorf (format : List Byte) (args : List Arg) : GoError :=
  Sprintf format args

/-! ## Machine integers -/

/-- Conversion to `uint32`: the low 32 bits. -/
def uint32 (x : Int) : Nat := (x % 4294967296).toNat

/-- Conversion to `int32`: the low 32 bits, read as a two's complement number. -/
def int32 (x : Int) : Int :=
  let low := x % 4294967296
  if low < 2147483648 then low else low - 4294967296

/-! ## The wazero linear memory (`api.Memory`) -/

abbrev Memory := List Byte

namespace Memory

/-- Holds when `byteCount` bytes starting at `offset` lie within the memory. -/
def hasSize (m : Memory) (offset byteCount : Nat) : Bool :=
  decide (offset + byteCount ≤ m.length)

/-- Model of `Memory.Size`: the size in bytes, as a `uint32`. -/
def Size (m : Memory) : Nat := m.length % 4294967296

/-- Model of `Memory.ReadByte`: `none` stands for `ok == false`. -/
def ReadByte (m : Memory) (offset : Nat) : Option Byte :=
  if m.hasSize offset 1 then m.get? offset else none

/-- Model of `Memory.Read`: `none` stands for `ok == false`. -/
def Read (m : Memory) (offset byteCount : Nat) : Option (List Byte) :=
  if m.hasSize offset byteCount then some ((m.drop offset).take byteCount) else none

/-- Little-endian bytes of a `uint32`. -/
def putUint32Le (v : Nat) : List Byte :=
  [⟨v % 256, Nat.mod_lt _ (by decide)⟩,
   ⟨v / 256 % 256, Nat.mod_lt _ (by decide)⟩,
   ⟨v / 65536 % 256, Nat.mod_lt _ (by decide)⟩,
   ⟨v / 16777216 % 256, Nat.mod_lt _ (by decide)⟩]

/-- Value of four little-endian bytes. -/
def leUint32 : List Byte → Nat
  | [b0, b1, b2, b3] => b0.val + 256 * b1.val + 65536 * b2.val + 16777216 * b3.val
  | _ => 0

/-- Model of `Memory.ReadUint32Le`: `none` stands for `ok == false`. -/
def ReadUint32Le (m : Memory) (offset : Nat) : Option Nat :=
  if m.hasSize offset 4 then some (leUint32 ((m.drop offset).take 4)) else none

/-- The buffer after `copy(m.Buffer[offset:], val)`, for a range that lies
within the buffer. -/
def copyAt (m : Memory) (offset : Nat) (val : List Byte) : Memory :=
  m.take offset ++ val ++ m.drop (offset + val.length)

/-- Model of `Memory.Write`: `none` stands for `false` (nothing is written). -/
def Write (m : Memory) (offset : Nat) (val : List Byte) : Option Memory :=
  if m.hasSize offset val.length then some (m.copyAt offset val) else none

/-- Model of `Memory.WriteUint32Le`: `none` stands for `false`. -/
def WriteUint32Le (m : Memory) (offset v : Nat) : Option Memory :=
  if m.hasSize offset 4 then some (m.copyAt offset (putUint32Le v)) else none

end Memory

/-! ## `lib.go` -/

/-- An exported function of the module: given the memory it returns either a
trap or the raw 64-bit result, and the memory it leaves behind. -/
structure wasmApi where
  name : List Byte
  fun_ : Memory → Except GoError Nat × Memory

/-- The state of a `Lib`: the linear memory, the four exported functions and
the recorded length of the staged input. -/
structure Lib where
  memory : Memory
  apiLibVersion : wasmApi
  apiBufferOffset : wasmApi
  apiTmdToHtml : wasmApi
  apiTmdFormat : wasmApi
  inputTmdDataLength : Nat

/-- The scanning loop of `readCString` (lines 129-140), with `fuel` bounding the
number of iterations.  It returns the final value of `end`. -/
def readCStringLoop (m : Memory) (size : Nat) : Nat → Nat → Outcome Nat
  | 0, _ => .diverges
  | fuel + 1, pos =>
    match m.ReadByte pos with
    | none => .panic (ascii "out of range")
    | some c =>
      if c = 0 then .ok pos
      else
        let next := (pos + 1) % 4294967296
        if next = size then .ok next else readCStringLoop m size fuel next

/-- `Lib.readCString` (lines 126-148). -/
def readCString (m : Memory) (offset : Nat) : Outcome (List Byte) :=
  let size := m.Size
  let scanned : Outcome Nat :=
    if offset < size then readCStringLoop m size (size - offset) offset else .ok offset
  match scanned with
  | .ok pos =>
    match m.Read offset (uint32 ((pos : Int) - (offset : Int))) with
    | none => .panic (ascii "out of range")
    | some bytes => .ok bytes
  | .error e => .error e
  | .panic msg => .panic msg
  | .diverges => .diverges

/-- `wasmApi.call` (lines 52-61), on the memory of the owning `Lib`. -/
def wasmApi.call (wa : wasmApi) (m : Memory) : Outcome Nat × Memory :=
  match wa.fun_ m with
  | (.error err, m1) => (.error err, m1)
  | (.ok ret, m1) =>
    let offset := int32 ret
    if offset < 0 then
      match readCString m1 (uint32 (int32 (int32 (-offset) - 1))) with
      | .ok msg => (.error (Errorf (ascii "%s error: %s") [.str wa.name, .bytes msg]), m1)
      | .error e => (.error e, m1)
      | .panic p => (.panic p, m1)
      | .diverges => (.diverges, m1)
    else (.ok (uint32 ret), m1)

/-- `Lib.writeData` (lines 169-179): the memory after the call and the error
returned, if any. -/
def writeData (m : Memory) (memoryOffset : Nat) (data : List Byte) : Memory × Option GoError :=
  match m.WriteUint32Le memoryOffset (data.length % 4294967296) with
  | none =>
    (m, some (Errorf (ascii "Memory.WriteUint32Le(%d, %d) not okay")
      [.int memoryOffset, .int data.length]))
  | some m1 =>
    match m1.Write ((memoryOffset + 4) % 4294967296) data with
    | none =>
      (m1, some (Errorf (ascii "Memory.WriteString(%d, %s) not okay")
        [.int ((memoryOffset + 4) % 4294967296 : Nat), .bytes data]))
    | some m2 => (m2, none)

/-- `Lib.readData` (lines 181-196): `ok none` is the `nil, nil` result. -/
def readData (m : Memory) (memoryOffset : Nat) : Except GoError (Option (List Byte)) :=
  match m.ReadUint32Le memoryOffset with
  | none =>
    .error (Errorf (ascii "Memory.ReadUint32Le(%d) not okay (output length)")
      [.int memoryOffset])
  | some outputLength =>
    if outputLength = 0 then .ok none
    else
      match m.Read ((memoryOffset + 4) % 4294967296) outputLength with
      | none =>
        .error (Errorf (ascii "Memory.Read(%d, %d) not okay (output length)")
          [.int ((memoryOffset + 4) % 4294967296 : Nat), .int outputLength])
      | some output => .ok (some output)

/-- `Lib.bufferOffset` (lines 160-167). -/
def Lib.bufferOffset (lib : Lib) : Outcome Nat × Lib :=
  match lib.apiBufferOffset.call lib.memory with
  | (.ok offset, m) => (.ok offset, { lib with memory := m })
  | (.error e, m) => (.error e, { lib with memory := m })
  | (.panic p, m) => (.panic p, { lib with memory := m })
  | (.diverges, m) => (.diverges, { lib with memory := m })

/-- `Lib.SetInputTmd` (lines 199-212): `ok ()` is the `nil` error. -/
def Lib.SetInputTmd (lib : Lib) (tmdData : List Byte) : Outcome Unit × Lib :=
  match lib.bufferOffset with
  | (.ok bufferOffset, lib1) =>
    match writeData lib1.memory bufferOffset tmdData with
    | (m, some err) => (.error err, { lib1 with memory := m })
    | (m, none) =>
      (.ok (), { lib1 with memory := m, inputTmdDataLength := tmdData.length % 4294967296 })
  | (.error e, lib1) => (.error e, lib1)
  | (.panic p, lib1) => (.panic p, lib1)
  | (.diverges, lib1) => (.diverges, lib1)

/-- The options used in HTML generation (lines 215-226). -/
structure HtmlGenOptions where
  EnabledCustomApps : List Byte
  IdentSuffix : List Byte
  AutoIdentSuffix : List Byte
  RenderRoot : Bool
  deriving DecidableEq, Repr

/-- The constant `genOptionsTempliate` (lines 228-248). -/
def genOptionsTempliate : List Byte :=
  ascii "\n@@@ #enabledCustomApps\n'''\n%s\n'''\n\n@@@ #identSuffix\n'''\n%s\n'''\n\n@@@ #autoIdentSuffix\n'''\n%s\n'''\n\n@@@ #renderRoot\n'''\n%v\n'''\n"

/-- `makeGenOptionsData` (lines 250-258). -/
def makeGenOptionsData (options : HtmlGenOptions) : List Byte :=
  Appendf [] genOptionsTempliate
    [.str options.EnabledCustomApps,
     .str options.IdentSuffix,
     .str options.AutoIdentSuffix,
     .bool options.RenderRoot]

/-- The first half of `GenerateHtml` and of `Format` (lines 262-272 and
293-302): query the scratch offset, advance it past the staged input, and
write the secondary payload there. -/
def Lib.writeSecondary (lib : Lib) (payload : List Byte) : Outcome Unit × Lib :=
  match lib.bufferOffset with
  | (.ok bufferOffset, lib1) =>
    let bufferOffset := (bufferOffset + (4 + lib1.inputTmdDataLength) % 4294967296) % 4294967296
    match writeData lib1.memory bufferOffset payload with
    | (m, some err) => (.error err, { lib1 with memory := m })
    | (m, none) => (.ok (), { lib1 with memory := m })
  | (.error e, lib1) => (.error e, lib1)
  | (.panic p, lib1) => (.panic p, lib1)
  | (.diverges, lib1) => (.diverges, lib1)

/-- The second half of `GenerateHtml` and of `Format` (lines 274-279 and
304-309) on a memory: call the exported function and read the data at the
offset it returns. -/
def wasmApi.callAndRead (wa : wasmApi) (m : Memory) : Outcome (Option (List Byte)) × Memory :=
  match wa.call m with
  | (.ok outputOffset, m1) =>
    match readData m1 outputOffset with
    | .ok out => (.ok out, m1)
    | .error e => (.error e, m1)
  | (.error e, m1) => (.error e, m1)
  | (.panic p, m1) => (.panic p, m1)
  | (.diverges, m1) => (.diverges, m1)

/-- The second half of `GenerateHtml` and of `Format`, on the `Lib`. -/
def Lib.callAndRead (lib : Lib) (wa : wasmApi) : Outcome (Option (List Byte)) × Lib :=
  ((wa.callAndRead lib.memory).1, { lib with memory := (wa.callAndRead lib.memory).2 })

/-- `Lib.GenerateHtml` (lines 261-280). -/
def Lib.GenerateHtml (lib : Lib) (options : HtmlGenOptions) :
    Outcome (Option (List Byte)) × Lib :=
  match lib.writeSecondary (makeGenOptionsData options) with
  | (.ok (), lib1) => lib1.callAndRead lib1.apiTmdToHtml
  | (.error e, lib1) => (.error e, lib1)
  | (.panic p, lib1) => (.panic p, lib1)
  | (.diverges, lib1) => (.diverges, lib1)

/-- `Lib.GenerateHtmlFromTmd` (lines 283-289). -/
def Lib.GenerateHtmlFromTmd (lib : Lib) (tmdData : List Byte) (options : HtmlGenOptions) :
    Outcome (Option (List Byte)) × Lib :=
  match lib.SetInputTmd tmdData with
  | (.ok (), lib1) => lib1.GenerateHtml options
  | (.error e, lib1) => (.error e, lib1)
  | (.panic p, lib1) => (.panic p, lib1)
  | (.diverges, lib1) => (.diverges, lib1)

/-- `Lib.Format` (lines 292-310). -/
def Lib.Format (lib : Lib) : Outcome (Option (List Byte)) × Lib :=
  match lib.writeSecondary [] with
  | (.ok (), lib1) => lib1.callAndRead lib1.apiTmdFormat
  | (.error e, lib1) => (.error e, lib1)
  | (.panic p, lib1) => (.panic p, lib1)
  | (.diverges, lib1) => (.diverges, lib1)

/-- `Lib.FormatTmd` (lines 313-320). -/
def Lib.FormatTmd (lib : Lib) (tmdData : List Byte) : Outcome (Option (List Byte)) × Lib :=
  match lib.SetInputTmd tmdData with
  | (.ok (), lib1) => lib1.Format
  | (.error e, lib1) => (.error e, lib1)
  | (.panic p, lib1) => (.panic p, lib1)
  | (.diverges, lib1) => (.diverges, lib1)

/-- The stress loop of `TestTmdLib` (lines 106-123): the results of `k`
consecutive `GenerateHtmlFromTmd` calls on the same `Lib`. -/
def Lib.repeatGenerateHtmlFromTmd (lib : Lib) (tmdData : List Byte) (options : HtmlGenOptions) :
    Nat → List (Outcome (Option (List Byte)))
  | 0 => []
  | k + 1 =>
    (lib.GenerateHtmlFromTmd tmdData options).1 ::
      Lib.repeatGenerateHtmlFromTmd (lib.GenerateHtmlFromTmd tmdData options).2 tmdData options k

/-- The scratch region of a composed call: the staged input and the secondary
payload, each behind its four-byte little-endian length. -/
def scratchLayout (x p : List Byte) : List Byte :=
  Memory.putUint32Le x.length ++ x ++ Memory.putUint32Le p.length ++ p

/-- The memory `m2` at the moment the exported function is invoked, against
the memory `m0` before staging and the memory `m1` after staging the input
`x` at the scratch offset `s`: the region at `s` holds the layout for `x` and
the secondary payload `p`, the bytes of the staged input are those of `m1`,
and every byte outside the region is that of `m0`. -/
def StagedLayout (m0 m1 m2 : Memory) (s : Nat) (x p : List Byte) : Prop :=
  (m2.drop s).take (8 + x.length + p.length) = scratchLayout x p ∧
  (m2.drop s).take (4 + x.length) = (m1.drop s).take (4 + x.length) ∧
  (∀ i, i < s ∨ s + 8 + x.length + p.length ≤ i → m2.get? i = m0.get? i) ∧
  m2.length = m0.length

/-- A stand-in for an exported function, for concrete checks: it returns
`s` and leaves the memory as it is. -/
def echoApi (name : String) (s : Nat) : wasmApi :=
  ⟨ascii name, fun m => (.ok s, m)⟩

/-- A `Lib` over the stand-in module: `buffer_offset` reports the scratch
offset `s`, and `tmd_to_html` and `tmd_format` return `s` as well, so that the
data read back after a call is the staged input. -/
def echoLib (s : Nat) (m : Memory) : Lib :=
  { memory := m
    apiLibVersion := echoApi "lib_version" s
    apiBufferOffset := echoApi "buffer_offset" s
    apiTmdToHtml := echoApi "tmd_to_html" s
    apiTmdFormat := echoApi "tmd_format" s
    inputTmdDataLength := 0 }

/-- A `Lib` over the stand-in module whose memory has two pages of zero
bytes and whose scratch offset is the start of the second page. -/
def twoPageLib : Lib := echoLib 65536 (List.replicate 131072 0)

/-- A `Lib` over the stand-in module whose memory has the full 65536 pages of
zero bytes and whose scratch offset is the start of the second page. -/
def fullMemoryLib : Lib := echoLib 65536 (List.replicate 4294967296 0)

/-- An input that fills the full memory from the scratch offset `65536`:
`65536 + 4 + 4294901756 = 2^32`. -/
def fullMemoryInput : List Byte := List.replicate 4294901756 97

/-- The options of `TestTmdLib` (line 103): the custom app `html` enabled. -/
def htmlOptions : HtmlGenOptions := ⟨ascii "html", [], [], false⟩

/-! ## Lemmas on the linear memory -/

theorem putUint32Le_length (v : Nat) : (Memory.putUint32Le v).length = 4 := rfl

theorem leUint32_putUint32Le (v : Nat) (h : v < 4294967296) :
    Memory.leUint32 (Memory.putUint32Le v) = v := by
  simp only [Memory.putUint32Le, Memory.leUint32]
  omega

theorem leUint32_lt (bs : List Byte) : Memory.leUint32 bs < 4294967296 := by
  unfold Memory.leUint32
  split
  · rename_i b0 b1 b2 b3
    have h0 := b0.isLt
    have h1 := b1.isLt
    have h2 := b2.isLt
    have h3 := b3.isLt
    omega
  · decide

theorem copyAt_length (m : Memory) (off : Nat) (v : List Byte) (h : off + v.length ≤ m.length) :
    (m.copyAt off v).length = m.length := by
  simp only [Memory.copyAt, List.length_append, List.length_take, List.length_drop]
  omega

theorem copyAt_region (m : Memory) (off : Nat) (v : List Byte) (h : off + v.length ≤ m.length) :
    ((m.copyAt off v).drop off).take v.length = v := by
  have h1 : (m.take off).length = off := by
    simp only [List.length_take]; omega
  unfold Memory.copyAt
  rw [List.append_assoc, List.drop_append_eq_append_drop, h1]
  simp [List.drop_eq_nil_of_le, h1]

theorem copyAt_get?_outside (m : Memory) (off : Nat) (v : List Byte)
    (h : off + v.length ≤ m.length) (i : Nat) (hi : i < off ∨ off + v.length ≤ i) :
    (m.copyAt off v).get? i = m.get? i := by
  have h1 : (m.take off).length = off := by
    simp only [List.length_take]; omega
  unfold Memory.copyAt
  simp only [List.get?_eq_getElem?]
  rcases hi with hi | hi
  · rw [List.append_assoc, List.getElem?_append_left (by omega), List.getElem?_take]
    simp [hi]
  · rw [List.getElem?_append_right (by simp; omega)]
    simp only [List.length_append, h1, List.getElem?_drop]
    congr 1
    omega

theorem copyAt_adjacent (m : Memory) (off : Nat) (a b : List Byte)
    (h : off + a.length + b.length ≤ m.length) :
    (m.copyAt off a).copyAt (off + a.length) b = m.copyAt off (a ++ b) := by
  have h1 : (m.take off).length = off := by
    simp only [List.length_take]; omega
  have h2 : (m.take off ++ a).length = off + a.length := by
    simp only [List.length_append, h1]
  unfold Memory.copyAt
  have e1 : List.take (off + a.length) (m.take off ++ a ++ m.drop (off + a.length))
      = m.take off ++ a := by
    rw [List.take_append_eq_append_take, h2]
    simp [List.take_of_length_le, h2]
  have e2 : List.drop (off + a.length + b.length) (m.take off ++ a ++ m.drop (off + a.length))
      = m.drop (off + (a ++ b).length) := by
    rw [List.drop_append_eq_append_drop, h2]
    rw [List.drop_eq_nil_of_le (by omega)]
    simp only [List.nil_append, List.drop_drop, List.length_append]
    congr 1
    omega
  rw [e1, e2]
  simp only [List.append_assoc]

theorem drop_take_shift (l : List Byte) (o a k : Nat) :
    (l.drop (o + a)).take k = (((l.drop o).take (a + k)).drop a) := by
  rw [List.drop_take, List.drop_drop, Nat.add_sub_cancel_left]

/-! ## Lemmas on `writeData` and `readData` -/

theorem writeData_ok (m : Memory) (o : Nat) (d : List Byte) (hm : m.length < 4294967296)
    (h : o + 4 + d.length ≤ m.length) :
    writeData m o d = (m.copyAt o (Memory.putUint32Le d.length ++ d), none) := by
  have hlen : (m.copyAt o (Memory.putUint32Le (d.length % 4294967296))).length = m.length :=
    copyAt_length m o _ (by rw [putUint32Le_length]; omega)
  have hd : d.length % 4294967296 = d.length := Nat.mod_eq_of_lt (by omega)
  have ho : (o + 4) % 4294967296 = o + 4 := Nat.mod_eq_of_lt (by omega)
  have hadj := copyAt_adjacent m o (Memory.putUint32Le d.length) d
    (by rw [putUint32Le_length]; omega)
  rw [putUint32Le_length] at hadj
  simp only [writeData, Memory.WriteUint32Le, Memory.Write, Memory.hasSize, hd, ho]
  rw [hd] at hlen
  simp [hlen, hadj, show o + 4 ≤ m.length by omega, h]

theorem writeData_header_fails (m : Memory) (o : Nat) (d : List Byte) (h : m.length < o + 4) :
    (writeData m o d).1 = m ∧ (writeData m o d).2.isSome = true := by
  simp [writeData, Memory.WriteUint32Le, Memory.hasSize, Nat.not_le.mpr h]

theorem writeData_payload_fails (m : Memory) (o : Nat) (d : List Byte)
    (hm : m.length < 4294967296) (h1 : o + 4 ≤ m.length) (h2 : m.length < o + 4 + d.length) :
    (writeData m o d).1 = m.copyAt o (Memory.putUint32Le (d.length % 4294967296)) ∧
      (writeData m o d).2.isSome = true := by
  have hlen : (m.copyAt o (Memory.putUint32Le (d.length % 4294967296))).length = m.length :=
    copyAt_length m o _ (by rw [putUint32Le_length]; omega)
  have ho : (o + 4) % 4294967296 = o + 4 := Nat.mod_eq_of_lt (by omega)
  simp [writeData, Memory.WriteUint32Le, Memory.Write, Memory.hasSize, ho, hlen, h1,
    Nat.not_le.mpr h2]

theorem readData_header_fails (m : Memory) (o : Nat) (h : m.length < o + 4) :
    ∃ e, readData m o = .error e := by
  simp [readData, Memory.ReadUint32Le, Memory.hasSize, Nat.not_le.mpr h]

theorem readData_zero (m : Memory) (o : Nat) (h : o + 4 ≤ m.length)
    (hz : Memory.leUint32 ((m.drop o).take 4) = 0) : readData m o = .ok none := by
  simp [readData, Memory.ReadUint32Le, Memory.hasSize, h, hz]

theorem readData_payload (m : Memory) (o : Nat) (hm : m.length < 4294967296)
    (hpos : 0 < Memory.leUint32 ((m.drop o).take 4))
    (h : o + 4 + Memory.leUint32 ((m.drop o).take 4) ≤ m.length) :
    readData m o =
      .ok (some ((m.drop (o + 4)).take (Memory.leUint32 ((m.drop o).take 4)))) := by
  have ho : (o + 4) % 4294967296 = o + 4 := Nat.mod_eq_of_lt (by omega)
  simp [readData, Memory.ReadUint32Le, Memory.Read, Memory.hasSize, ho, h,
    show o + 4 ≤ m.length by omega, Nat.pos_iff_ne_zero.mp hpos]

theorem readData_payload_fails (m : Memory) (o : Nat) (hm : m.length < 4294967296)
    (h4 : o + 4 ≤ m.length)
    (hpos : 0 < Memory.leUint32 ((m.drop o).take 4))
    (h : m.length < o + 4 + Memory.leUint32 ((m.drop o).take 4)) :
    ∃ e, readData m o = .error e := by
  have ho : (o + 4) % 4294967296 = o + 4 := Nat.mod_eq_of_lt (by omega)
  simp [readData, Memory.ReadUint32Le, Memory.Read, Memory.hasSize, ho, h4,
    Nat.not_le.mpr h, Nat.pos_iff_ne_zero.mp hpos]

/-- The header and the payload read back from a region that holds a
length header followed by data. -/
theorem region_header (m : Memory) (o : Nat) (hd : List Byte) (d : List Byte)
    (hlen : hd.length = 4) (hreg : (m.drop o).take (4 + d.length) = hd ++ d) :
    (m.drop o).take 4 = hd ∧ (m.drop (o + 4)).take d.length = d := by
  constructor
  · have := congrArg (List.take 4) hreg
    rw [List.take_take] at this
    simpa [hlen] using this
  · rw [drop_take_shift, hreg]
    simp [hlen]

/-! ## The length-prefixed buffer protocol -/

/-- C1. Round trip of the length-prefixed buffer protocol: on a memory of
size `n < 2^32`, when `o + 4 + len d ≤ n` the call `writeData o d` returns no
error, and `readData o` on the memory it leaves returns exactly `d` when `d`
is not empty and the absent (`nil`) result when `d` is empty, with no error. -/
theorem writeData_readData_roundtrip (m : Memory) (o : Nat) (d : List Byte)
    (hm : m.length < 4294967296) (h : o + 4 + d.length ≤ m.length) :
    (writeData m o d).2 = none ∧
      readData (writeData m o d).1 o = .ok (if d = [] then none else some d) := by
  rw [writeData_ok m o d hm h]
  refine ⟨rfl, ?_⟩
  have hfit : o + (Memory.putUint32Le d.length ++ d).length ≤ m.length := by
    simp only [List.length_append, putUint32Le_length]; omega
  have hlen := copyAt_length m o _ hfit
  have hreg := copyAt_region m o _ hfit
  rw [List.length_append, putUint32Le_length] at hreg
  obtain ⟨hhd, hpay⟩ := region_header _ o _ d (putUint32Le_length _) hreg
  have hval : Memory.leUint32 ((List.drop o (m.copyAt o (Memory.putUint32Le d.length ++ d))).take 4)
      = d.length := by
    rw [hhd]; exact leUint32_putUint32Le _ (by omega)
  by_cases hd : d = []
  · subst hd
    simp only [if_true]
    exact readData_zero _ o (by omega) (by rw [hval]; rfl)
  · have hpos : 0 < d.length := List.length_pos.mpr hd
    simp only [hd, if_false]
    rw [readData_payload _ o (by omega) (by rw [hval]; exact hpos) (by rw [hval]; omega), hval, hpay]

theorem writeData_readData_roundtrip_witness :
    (writeData (List.replicate 12 0) 2 [1, 2, 3]).2 = none ∧
      readData (writeData (List.replicate 12 0) 2 [1, 2, 3]).1 2
        = .ok (if ([1, 2, 3] : List Byte) = [] then none else some [1, 2, 3]) :=
  writeData_readData_roundtrip (List.replicate 12 0) 2 [1, 2, 3] (by decide) (by decide)

/-- Below the full memory, `writeData` fails exactly on out-of-bounds writes:
on a memory of size `n < 2^32`, `writeData o d` returns an error if and only
if `o + 4 + len d > n`, the sum taken in unbounded integers. -/
theorem writeData_error_iff (m : Memory) (o : Nat) (d : List Byte)
    (hm : m.length < 4294967296) :
    (writeData m o d).2.isSome = true ↔ m.length < o + 4 + d.length := by
  constructor
  · intro herr
    by_contra hfit
    rw [writeData_ok m o d hm (by omega)] at herr
    cases herr
  · intro hbig
    by_cases h4 : o + 4 ≤ m.length
    · exact (writeData_payload_fails m o d hm h4 hbig).2
    · exact (writeData_header_fails m o d (by omega)).2

theorem writeData_error_iff_witness :
    ((writeData (List.replicate 8 0) 4294967292 [1]).2.isSome = true ↔
      (List.replicate 8 (0 : Byte)).length < 4294967292 + 4 + [(1 : Byte)].length) :=
  writeData_error_iff (List.replicate 8 0) 4294967292 [1] (by decide)

/-! ## Lemmas on `readCString` and `wasmApi.call` -/

theorem take_length_takeWhile (p : Byte → Bool) (l : List Byte) :
    l.take (l.takeWhile p).length = l.takeWhile p := by
  induction l with
  | nil => rfl
  | cons a l ih =>
    by_cases h : p a = true
    · simp [List.takeWhile_cons, h, ih]
    · simp [List.takeWhile_cons, h]

theorem length_takeWhile_le (p : Byte → Bool) (l : List Byte) :
    (l.takeWhile p).length ≤ l.length := by
  induction l with
  | nil => simp
  | cons a l ih =>
    by_cases h : p a = true
    · simp only [List.takeWhile_cons, h, if_true, List.length_cons]; omega
    · simp [List.takeWhile_cons, h]

/-- With fuel for the bytes that remain, the loop stops at the first zero byte
at or after `pos`, or at the end of the memory. -/
theorem readCStringLoop_eq (m : Memory) (hm : m.length < 4294967296) (fuel pos : Nat)
    (hpos : pos < m.length) (hfuel : m.length - pos ≤ fuel) :
    readCStringLoop m m.length fuel pos
      = .ok (pos + ((m.drop pos).takeWhile (fun b => decide (b ≠ 0))).length) := by
  induction fuel generalizing pos with
  | zero => omega
  | succ fuel ih =>
    obtain ⟨c, hget, hdrop⟩ : ∃ c, m.get? pos = some c ∧ m.drop pos = c :: m.drop (pos + 1) := by
      refine ⟨m.get ⟨pos, hpos⟩, List.get?_eq_get hpos, ?_⟩
      simp
    have hrd : Memory.ReadByte m pos = some c := by
      simp only [Memory.ReadByte, Memory.hasSize]
      rw [if_pos (by simpa using hpos), hget]
    have hnext : (pos + 1) % 4294967296 = pos + 1 := Nat.mod_eq_of_lt (by omega)
    rw [readCStringLoop, hrd]
    simp only [hnext]
    by_cases hc : c = 0
    · rw [if_pos hc, hdrop]
      simp [List.takeWhile_cons, hc]
    · rw [if_neg hc, hdrop]
      by_cases hend : pos + 1 = m.length
      · rw [if_pos hend]
        have : m.drop (pos + 1) = [] := List.drop_eq_nil_of_le (by omega)
        simp [List.takeWhile_cons, hc, this]
      · rw [if_neg hend, ih (pos + 1) (by omega) (by omega)]
        simp only [List.takeWhile_cons, decide_not, hc, decide_False, Bool.not_false, if_true,
          List.length_cons]
        congr 1
        omega

/-- `readCString` at an offset within the memory, or at its end, returns the
bytes before the first zero byte, or up to the end of the memory. -/
theorem readCString_inside (m : Memory) (offset : Nat) (hm : m.length < 4294967296)
    (hoff : offset ≤ m.length) :
    readCString m offset = .ok ((m.drop offset).takeWhile (fun b => decide (b ≠ 0))) := by
  have hsize : Memory.Size m = m.length := Nat.mod_eq_of_lt hm
  have hle := length_takeWhile_le (fun b => decide (b ≠ 0)) (m.drop offset)
  rw [List.length_drop] at hle
  have key : ∀ k : Nat, k = ((m.drop offset).takeWhile (fun b => decide (b ≠ 0))).length →
      (match Memory.Read m offset (uint32 (((offset + k : Nat) : Int) - (offset : Int))) with
        | none => Outcome.panic (ascii "out of range")
        | some bytes => Outcome.ok bytes)
        = .ok ((m.drop offset).takeWhile (fun b => decide (b ≠ 0))) := by
    intro k hk
    have hu : uint32 (((offset + k : Nat) : Int) - (offset : Int)) = k := by
      unfold uint32
      omega
    rw [hu]
    simp only [Memory.Read, Memory.hasSize]
    rw [if_pos (by simp only [decide_eq_true_eq]; omega), hk, take_length_takeWhile]
  unfold readCString
  simp only [hsize]
  by_cases hlt : offset < m.length
  · rw [if_pos hlt, readCStringLoop_eq m hm _ offset hlt (Nat.le_refl _)]
    exact key _ rfl
  · rw [if_neg hlt]
    have hnil : m.drop offset = [] := List.drop_eq_nil_of_le (by omega)
    have := key 0 (by simp [hnil])
    simpa using this

/-- `readCString` at an offset beyond the end of the memory reaches the
second `out of range` panic. -/
theorem readCString_outside (m : Memory) (offset : Nat) (hm : m.length < 4294967296)
    (hoff : m.length < offset) :
    readCString m offset = .panic (ascii "out of range") := by
  have hsize : Memory.Size m = m.length := Nat.mod_eq_of_lt hm
  unfold readCString
  simp only [hsize]
  rw [if_neg (by omega)]
  have hu : uint32 ((offset : Int) - (offset : Int)) = 0 := by
    unfold uint32
    omega
  simp only [hu, Memory.Read, Memory.hasSize]
  rw [if_neg (by simp only [decide_eq_true_eq]; omega)]

/-- The offset of the message encoded by a negative return value. -/
theorem sentinel_offset (r : Int) (hlo : -2147483648 ≤ r) (hneg : r < 0) :
    uint32 (int32 (int32 (-r) - 1)) = (-r - 1).toNat := by
  unfold uint32 int32
  simp only []
  split <;> split <;> omega

theorem int32_range (x : Int) : -2147483648 ≤ int32 x ∧ int32 x < 2147483648 := by
  unfold int32
  simp only []
  split <;> omega

theorem uint32_of_int32_nonneg (ret : Nat) (h : 0 ≤ int32 ret) :
    uint32 ret = (int32 ret).toNat := by
  unfold uint32
  unfold int32 at h ⊢
  simp only [] at h ⊢
  split at h <;> split <;> omega

theorem errorf_call (name msg : List Byte) :
    Errorf (ascii "%s error: %s") [.str name, .bytes msg] = name ++ ascii " error: " ++ msg := by
  have : Errorf (ascii "%s error: %s") [.str name, .bytes msg]
      = name ++ (ascii " error: " ++ (msg ++ [])) := rfl
  rw [this, List.append_nil, List.append_assoc]

/-! ## Return-value decoding -/

/-- C3 (amended). Return-value decoding of an exported call, on a memory of
size `n < 2^32` left by the module, with `r` the low 32 bits of the raw result
read as a signed number: `call` returns `(r, nil)` when `r ≥ 0`; when `r < 0`
and the offset `(-r) - 1` (in exact integers) is at most `n`, it returns the
error whose text is the name, then `" error: "`, then the bytes of memory from
that offset up to but not including the first zero byte, or up to the end of
memory, and that message holds no zero byte; when `r < 0` and `(-r) - 1 > n`
it panics with `out of range` instead of returning an error. -/
theorem call_decodes_return (wa : wasmApi) (m m1 : Memory) (ret : Nat)
    (hfun : wa.fun_ m = (.ok ret, m1)) (hm : m1.length < 4294967296) :
    (0 ≤ int32 ret → wa.call m = (.ok (int32 ret).toNat, m1)) ∧
    (int32 ret < 0 → (-(int32 ret) - 1).toNat ≤ m1.length →
      wa.call m = (.error (wa.name ++ ascii " error: " ++
          (m1.drop (-(int32 ret) - 1).toNat).takeWhile (fun b => decide (b ≠ 0))), m1) ∧
        ∀ b ∈ (m1.drop (-(int32 ret) - 1).toNat).takeWhile (fun b => decide (b ≠ 0)), b ≠ 0) ∧
    (int32 ret < 0 → m1.length < (-(int32 ret) - 1).toNat →
      wa.call m = (.panic (ascii "out of range"), m1)) := by
  have hoff := fun h => sentinel_offset (int32 ret) (int32_range ret).1 h
  refine ⟨?_, ?_, ?_⟩
  · intro hr
    unfold wasmApi.call
    rw [hfun]
    simp only []
    rw [if_neg (by omega), uint32_of_int32_nonneg ret hr]
  · intro hr hin
    constructor
    · unfold wasmApi.call
      rw [hfun]
      simp only []
      rw [if_pos hr, hoff hr, readCString_inside m1 _ hm hin]
      simp only [errorf_call]
    · intro b hb
      have := List.mem_takeWhile_imp hb
      simpa using this
  · intro hr hout
    unfold wasmApi.call
    rw [hfun]
    simp only []
    rw [if_pos hr, hoff hr, readCString_outside m1 _ hm hout]

theorem call_decodes_return_witness :
    wasmApi.call ⟨ascii "tmd_format", fun m => (.ok 4294967294, m)⟩ [9, 104, 105, 0, 7]
      = (.error (ascii "tmd_format" ++ ascii " error: " ++
          (List.drop (-(int32 (4294967294 : Nat)) - 1).toNat ([9, 104, 105, 0, 7] : Memory)).takeWhile
            (fun b => decide (b ≠ 0))), [9, 104, 105, 0, 7]) :=
  ((call_decodes_return ⟨ascii "tmd_format", fun m => (.ok 4294967294, m)⟩
    [9, 104, 105, 0, 7] [9, 104, 105, 0, 7] 4294967294 rfl (by decide)).2.1
      (by decide) (by decide)).1

/-- C3 (as stated, refuted). With a memory of one byte and the return value
`r = -3`, whose message offset `2` lies beyond the memory, `call` panics with
`out of range`; it does not return an error. -/
theorem call_returns_error_counterexample :
    int32 (4294967293 : Nat) = -3 ∧
    (wasmApi.call ⟨ascii "tmd_to_html", fun m => (.ok 4294967293, m)⟩ [7]).1
      = .panic (ascii "out of range") ∧
    ¬ ∃ e, (wasmApi.call ⟨ascii "tmd_to_html", fun m => (.ok 4294967293, m)⟩ [7]).1
      = .error e := by
  refine ⟨by decide, by decide, ?_⟩
  rintro ⟨e, he⟩
  have h : (wasmApi.call ⟨ascii "tmd_to_html", fun m => (.ok 4294967293, m)⟩ [7]).1
      = .panic (ascii "out of range") := by decide
  rw [h] at he
  cases he

/-- C4 (amended). For a memory of size `n < 2^32` and a negative return value
`r`, decoding the sentinel reads the message at offset `(-r) - 1`.  When that
offset is at most `n`, `readCString` completes without panic and the message
lies within the memory; the message is not empty exactly when the offset is
below `n` and the byte there is not zero.  When the offset exceeds `n`,
`readCString` reaches the `out of range` panic. -/
theorem sentinel_decoding (m : Memory) (ret : Nat) (hm : m.length < 4294967296)
    (hneg : int32 ret < 0) :
    uint32 (int32 (int32 (-(int32 ret)) - 1)) = (-(int32 ret) - 1).toNat ∧
    ((-(int32 ret) - 1).toNat ≤ m.length →
      readCString m (-(int32 ret) - 1).toNat
        = .ok ((m.drop (-(int32 ret) - 1).toNat).takeWhile (fun b => decide (b ≠ 0))) ∧
      (-(int32 ret) - 1).toNat
        + ((m.drop (-(int32 ret) - 1).toNat).takeWhile (fun b => decide (b ≠ 0))).length
          ≤ m.length ∧
      ((m.drop (-(int32 ret) - 1).toNat).takeWhile (fun b => decide (b ≠ 0)) ≠ [] ↔
        ∃ b, m.get? (-(int32 ret) - 1).toNat = some b ∧ b ≠ 0)) ∧
    (m.length < (-(int32 ret) - 1).toNat →
      readCString m (-(int32 ret) - 1).toNat = .panic (ascii "out of range")) := by
  refine ⟨sentinel_offset (int32 ret) (int32_range ret).1 hneg, ?_, ?_⟩
  · intro hin
    refine ⟨readCString_inside m _ hm hin, ?_, ?_⟩
    · have := length_takeWhile_le (fun b => decide (b ≠ 0)) (m.drop (-(int32 ret) - 1).toNat)
      rw [List.length_drop] at this
      omega
    · generalize (-(int32 ret) - 1).toNat = off
      rcases hd : m.drop off with _ | ⟨c, rest⟩
      · have hge : m.length ≤ off := List.drop_eq_nil_iff.mp hd
        have hnone : m[off]? = none := List.getElem?_eq_none hge
        simp [hnone]
      · have hlt : off < m.length := by
          by_contra hcon
          rw [List.drop_eq_nil_of_le (by omega)] at hd
          cases hd
        have hget : m.get? off = some c := by
          have h1 : (m.drop off).get? 0 = m.get? off := by simp
          rw [← h1, hd]
          rfl
        rw [List.get?_eq_getElem?] at hget
        by_cases hc : c = 0
        · simp [List.takeWhile_cons, hc, hget]
        · simp [List.takeWhile_cons, hc, hget]
  · exact fun hout => readCString_outside m _ hm hout

theorem sentinel_decoding_witness :
    readCString [9, 104, 105, 0, 7] (-(int32 (4294967294 : Nat)) - 1).toNat
      = .ok ((List.drop (-(int32 (4294967294 : Nat)) - 1).toNat
          ([9, 104, 105, 0, 7] : Memory)).takeWhile (fun b => decide (b ≠ 0))) :=
  ((sentinel_decoding [9, 104, 105, 0, 7] 4294967294 (by decide) (by decide)).2.1
    (by decide)).1

/-- C4 (as stated, refuted). A negative return value can decode to an empty
message: with the memory `[0]` and `r = -1` the message at offset `0` is
empty and the error text is the name and `" error: "` alone.  It can also
reach the panic: with the memory `[0]` and `r = -3` the offset `2` lies beyond
the memory and `readCString` panics with `out of range`. -/
theorem sentinel_nonempty_counterexample :
    int32 (4294967295 : Nat) = -1 ∧
    readCString [0] (uint32 (int32 (int32 (-(int32 (4294967295 : Nat))) - 1))) = .ok [] ∧
    (wasmApi.call ⟨ascii "tmd_format", fun m => (.ok 4294967295, m)⟩ [0]).1
      = .error (ascii "tmd_format error: ") ∧
    readCString [0] (uint32 (int32 (int32 (-(int32 (4294967293 : Nat))) - 1)))
      = .panic (ascii "out of range") := by
  refine ⟨by decide, by decide, by decide, by decide⟩

/-! ## The configuration encoding -/

set_option maxRecDepth 100000 in
/-- The output of `makeGenOptionsData`, as the format unfolds. -/
theorem makeGenOptionsData_unfold (a b c : List Byte) (d : Bool) :
    makeGenOptionsData ⟨a, b, c, d⟩ =
      ascii "\n@@@ #enabledCustomApps\n'''\n" ++ (a ++
      (ascii "\n'''\n\n@@@ #identSuffix\n'''\n" ++ (b ++
      (ascii "\n'''\n\n@@@ #autoIdentSuffix\n'''\n" ++ (c ++
      (ascii "\n'''\n\n@@@ #renderRoot\n'''\n" ++
      ((if d then ascii "true" else ascii "false") ++ ascii "\n'''\n"))))))) := by
  rfl

/-- Two texts that agree after a newline-free part and a newline agree on
that part and on what follows the newline. -/
theorem split_at_newline (a1 a2 r1 r2 : List Byte) (h1 : (10 : Byte) ∉ a1) (h2 : (10 : Byte) ∉ a2)
    (h : a1 ++ 10 :: r1 = a2 ++ 10 :: r2) : a1 = a2 ∧ r1 = r2 := by
  induction a1 generalizing a2 with
  | nil =>
    cases a2 with
    | nil => simpa using h
    | cons y ys =>
      simp only [List.nil_append, List.cons_append, List.cons.injEq] at h
      exact absurd (h.1 ▸ List.mem_cons_self _ _) h2
  | cons x xs ih =>
    cases a2 with
    | nil =>
      simp only [List.nil_append, List.cons_append, List.cons.injEq] at h
      exact absurd (h.1 ▸ List.mem_cons_self _ _) h1
    | cons y ys =>
      simp only [List.cons_append, List.cons.injEq] at h
      obtain ⟨hxy, hrest⟩ := h
      have := ih ys (fun hm => h1 (List.mem_cons_of_mem _ hm))
        (fun hm => h2 (List.mem_cons_of_mem _ hm)) hrest
      exact ⟨by rw [hxy, this.1], this.2⟩

/-- C7. Fixed-schema configuration encoding: for every options value,
`makeGenOptionsData` returns the four sections for `enabledCustomApps`,
`identSuffix`, `autoIdentSuffix` and `renderRoot`, in that order and none
omitted, each made of the header line `@@@ #name`, a fence line, the value
on its own line and a closing fence line; the three strings appear verbatim
and the boolean as `true` or `false`. -/
theorem makeGenOptionsData_eq (o : HtmlGenOptions) :
    makeGenOptionsData o =
      ascii "\n@@@ #enabledCustomApps\n'''\n" ++ o.EnabledCustomApps ++
      ascii "\n'''\n\n@@@ #identSuffix\n'''\n" ++ o.IdentSuffix ++
      ascii "\n'''\n\n@@@ #autoIdentSuffix\n'''\n" ++ o.AutoIdentSuffix ++
      ascii "\n'''\n\n@@@ #renderRoot\n'''\n" ++
      (if o.RenderRoot then ascii "true" else ascii "false") ++ ascii "\n'''\n" := by
  cases o with
  | mk a b c d =>
    rw [makeGenOptionsData_unfold]
    simp only [List.append_assoc]

/-- C10. The configuration encoding is unambiguous for newline-free values:
two options values whose three strings hold no newline byte and whose
encodings are equal are equal in all four fields. -/
theorem makeGenOptionsData_injective (o1 o2 : HtmlGenOptions)
    (h1a : (10 : Byte) ∉ o1.EnabledCustomApps) (h1b : (10 : Byte) ∉ o1.IdentSuffix)
    (h1c : (10 : Byte) ∉ o1.AutoIdentSuffix)
    (h2a : (10 : Byte) ∉ o2.EnabledCustomApps) (h2b : (10 : Byte) ∉ o2.IdentSuffix)
    (h2c : (10 : Byte) ∉ o2.AutoIdentSuffix)
    (h : makeGenOptionsData o1 = makeGenOptionsData o2) : o1 = o2 := by
  obtain ⟨a1, b1, c1, d1⟩ := o1
  obtain ⟨a2, b2, c2, d2⟩ := o2
  simp only at h1a h1b h1c h2a h2b h2c
  rw [makeGenOptionsData_unfold, makeGenOptionsData_unfold] at h
  have e1 : ascii "\n'''\n\n@@@ #identSuffix\n'''\n"
      = 10 :: ascii "'''\n\n@@@ #identSuffix\n'''\n" := by decide
  have e2 : ascii "\n'''\n\n@@@ #autoIdentSuffix\n'''\n"
      = 10 :: ascii "'''\n\n@@@ #autoIdentSuffix\n'''\n" := by decide
  have e3 : ascii "\n'''\n\n@@@ #renderRoot\n'''\n"
      = 10 :: ascii "'''\n\n@@@ #renderRoot\n'''\n" := by decide
  rw [e1, e2, e3] at h
  have ha := split_at_newline _ _ _ _ h1a h2a (List.append_cancel_left h)
  have hb := split_at_newline _ _ _ _ h1b h2b (List.append_cancel_left ha.2)
  have hc := split_at_newline _ _ _ _ h1c h2c (List.append_cancel_left hb.2)
  have hd : d1 = d2 := by
    have hfin := List.append_cancel_left hc.2
    cases d1 <;> cases d2
    · rfl
    · exact absurd hfin (by decide)
    · exact absurd hfin (by decide)
    · rfl
  rw [ha.1, hb.1, hc.1, hd]

theorem makeGenOptionsData_injective_witness :
    (⟨ascii "html", [], ascii "-x", true⟩ : HtmlGenOptions)
      = ⟨ascii "html", [], ascii "-x", true⟩ :=
  makeGenOptionsData_injective ⟨ascii "html", [], ascii "-x", true⟩
    ⟨ascii "html", [], ascii "-x", true⟩
    (by decide) (by decide) (by decide) (by decide) (by decide) (by decide) rfl

/-! ## Staging and composed calls -/

theorem writeData_none_fits (m : Memory) (o : Nat) (d : List Byte) (hm : m.length < 4294967296)
    (h : (writeData m o d).2 = none) : o + 4 + d.length ≤ m.length := by
  by_contra hbig
  by_cases h4 : o + 4 ≤ m.length
  · have := (writeData_payload_fails m o d hm h4 (by omega)).2
    rw [h] at this
    cases this
  · have := (writeData_header_fails m o d (by omega)).2
    rw [h] at this
    cases this

/-- A `SetInputTmd` that returns no error, with the scratch offset `s`, has
written the length header and the input at `s` and recorded the length. -/
theorem SetInputTmd_ok (lib lib1 : Lib) (s : Nat) (x : List Byte)
    (hm : lib.memory.length < 4294967296) (hbo : lib.bufferOffset = (.ok s, lib))
    (hset : lib.SetInputTmd x = (.ok (), lib1)) :
    s + 4 + x.length ≤ lib.memory.length ∧
      lib1 = { lib with memory := lib.memory.copyAt s (Memory.putUint32Le x.length ++ x),
                        inputTmdDataLength := x.length } := by
  unfold Lib.SetInputTmd at hset
  rw [hbo] at hset
  simp only [] at hset
  rcases hw : writeData lib.memory s x with ⟨m, _ | err⟩
  · have hfit := writeData_none_fits lib.memory s x hm (by rw [hw])
    rw [writeData_ok lib.memory s x hm hfit] at hw hset
    simp only [Prod.mk.injEq, true_and] at hset
    refine ⟨hfit, ?_⟩
    rw [← hset, Nat.mod_eq_of_lt (by omega)]
  · rw [hw] at hset
    simp only [Prod.mk.injEq] at hset
    exact absurd hset.1 (by simp)

/-- A secondary write that returns no error, with the scratch offset `s` and a
recorded input length `len`, has written the length header and the payload
at `s + 4 + len`. -/
theorem writeSecondary_ok (lib1 lib2 : Lib) (s len : Nat) (p : List Byte)
    (hm : lib1.memory.length < 4294967296) (hlen : lib1.inputTmdDataLength = len)
    (hfit1 : s + 4 + len ≤ lib1.memory.length)
    (hbo : lib1.bufferOffset = (.ok s, lib1))
    (hsec : lib1.writeSecondary p = (.ok (), lib2)) :
    (s + (4 + lib1.inputTmdDataLength) % 4294967296) % 4294967296 = s + 4 + len ∧
    s + 4 + len + 4 + p.length ≤ lib1.memory.length ∧
    writeData lib1.memory (s + 4 + len) p = (lib2.memory, none) ∧
    lib2 = { lib1 with memory :=
      lib1.memory.copyAt (s + 4 + len) (Memory.putUint32Le p.length ++ p) } := by
  have hoff : (s + (4 + lib1.inputTmdDataLength) % 4294967296) % 4294967296 = s + 4 + len := by
    rw [hlen]
    omega
  unfold Lib.writeSecondary at hsec
  rw [hbo] at hsec
  simp only [hoff] at hsec
  rcases hw : writeData lib1.memory (s + 4 + len) p with ⟨m, _ | err⟩
  · have hfit := writeData_none_fits lib1.memory (s + 4 + len) p hm (by rw [hw])
    rw [writeData_ok lib1.memory (s + 4 + len) p hm hfit] at hw hsec
    simp only [Prod.mk.injEq, true_and] at hsec
    refine ⟨hoff, hfit, ?_, hsec.symm⟩
    rw [← hsec]
    exact hw.symm
  · rw [hw] at hsec
    simp only [Prod.mk.injEq] at hsec
    exact absurd hsec.1 (by simp)

/-- The memory after writing the layout of `x` and `p` at `s` in one copy. -/
theorem stagedLayout_copyAt (m0 : Memory) (s : Nat) (x p : List Byte)
    (hfit : s + 4 + x.length + 4 + p.length ≤ m0.length) :
    StagedLayout m0 (m0.copyAt s (Memory.putUint32Le x.length ++ x))
      (m0.copyAt s (scratchLayout x p)) s x p := by
  have hl : (scratchLayout x p).length = 8 + x.length + p.length := by
    simp only [scratchLayout, List.length_append, putUint32Le_length]; omega
  have hl1 : (Memory.putUint32Le x.length ++ x).length = 4 + x.length := by
    simp only [List.length_append, putUint32Le_length]
  have hreg := copyAt_region m0 s (scratchLayout x p) (by omega)
  have hreg1 := copyAt_region m0 s (Memory.putUint32Le x.length ++ x) (by omega)
  rw [hl] at hreg
  rw [hl1] at hreg1
  refine ⟨hreg, ?_, ?_, copyAt_length m0 s _ (by omega)⟩
  · rw [hreg1]
    have := congrArg (List.take (4 + x.length)) hreg
    rw [List.take_take, Nat.min_eq_left (by omega)] at this
    rw [this, scratchLayout, List.append_assoc, List.take_append_eq_append_take]
    simp [hl1]
  · intro i hi
    exact copyAt_get?_outside m0 s _ (by omega) i (by omega)

/-- After a successful `SetInputTmd x` and a successful secondary write of `p`,
both at the scratch offset `s`, the secondary write went to `s + 4 + len x` and
the memory holds the layout of `x` and `p` at `s`. -/
theorem staged_after_secondary (lib lib1 lib2 : Lib) (s : Nat) (x p : List Byte)
    (hm : lib.memory.length < 4294967296)
    (hbo1 : lib.bufferOffset = (.ok s, lib))
    (hset : lib.SetInputTmd x = (.ok (), lib1))
    (hbo2 : lib1.bufferOffset = (.ok s, lib1))
    (hsec : lib1.writeSecondary p = (.ok (), lib2)) :
    writeData lib1.memory (s + 4 + x.length) p = (lib2.memory, none) ∧
      lib2.memory = lib.memory.copyAt s (scratchLayout x p) ∧
      s + 4 + x.length + 4 + p.length ≤ lib.memory.length ∧
      StagedLayout lib.memory lib1.memory lib2.memory s x p := by
  obtain ⟨hfit1, hlib1⟩ := SetInputTmd_ok lib lib1 s x hm hbo1 hset
  have hmem1 : lib1.memory = lib.memory.copyAt s (Memory.putUint32Le x.length ++ x) := by
    rw [hlib1]
  have hlen1 : lib1.inputTmdDataLength = x.length := by rw [hlib1]
  have hl1 : (Memory.putUint32Le x.length ++ x).length = 4 + x.length := by
    simp only [List.length_append, putUint32Le_length]
  have hsz1 : lib1.memory.length = lib.memory.length := by
    rw [hmem1]; exact copyAt_length _ _ _ (by omega)
  obtain ⟨_, hfit2, hwd, hlib2⟩ := writeSecondary_ok lib1 lib2 s x.length p (by omega) hlen1
    (by omega) hbo2 hsec
  have hmem2 : lib2.memory = lib.memory.copyAt s (scratchLayout x p) := by
    rw [hlib2]
    simp only []
    rw [hmem1]
    have hadj := copyAt_adjacent lib.memory s (Memory.putUint32Le x.length ++ x)
      (Memory.putUint32Le p.length ++ p)
      (by simp only [List.length_append, putUint32Le_length]; omega)
    rw [hl1] at hadj
    rw [show s + 4 + x.length = s + (4 + x.length) by omega, hadj, scratchLayout]
    simp only [List.append_assoc]
  refine ⟨hwd, hmem2, by omega, ?_⟩
  rw [hmem2, hmem1]
  exact stagedLayout_copyAt lib.memory s x p (by omega)

/-- Below the full memory, the layout of a composed call: on a memory of size
`n < 2^32`, if `buffer_offset` returns the same scratch offset `s`, leaving
the memory as it is, during `SetInputTmd x` and during the following
`GenerateHtml o` or `Format`, and both `writeData` calls succeed, then the
exported function is invoked on a memory that holds at `s` exactly
`LE32 (len x) ++ x ++ LE32 (len p) ++ p`, with `p = makeGenOptionsData o` for
`GenerateHtml` and `p` empty for `Format` (the second header is then four zero
bytes); the secondary write starts at `s + 4 + len x`, the staged input region
is as `SetInputTmd` left it, and every byte outside
`[s, s + 8 + len x + len p)` is as before the two calls. -/
theorem composed_call_layout (lib lib1 : Lib) (s : Nat) (x : List Byte)
    (hm : lib.memory.length < 4294967296)
    (hbo1 : lib.bufferOffset = (.ok s, lib))
    (hset : lib.SetInputTmd x = (.ok (), lib1))
    (hbo2 : lib1.bufferOffset = (.ok s, lib1)) :
    (∀ o lib2, lib1.writeSecondary (makeGenOptionsData o) = (.ok (), lib2) →
      lib1.GenerateHtml o = lib2.callAndRead lib2.apiTmdToHtml ∧
      writeData lib1.memory (s + 4 + x.length) (makeGenOptionsData o) = (lib2.memory, none) ∧
      StagedLayout lib.memory lib1.memory lib2.memory s x (makeGenOptionsData o)) ∧
    (∀ lib2, lib1.writeSecondary [] = (.ok (), lib2) →
      lib1.Format = lib2.callAndRead lib2.apiTmdFormat ∧
      writeData lib1.memory (s + 4 + x.length) [] = (lib2.memory, none) ∧
      StagedLayout lib.memory lib1.memory lib2.memory s x [] ∧
      (lib2.memory.drop (s + 4 + x.length)).take 4 = [0, 0, 0, 0]) := by
  constructor
  · intro o lib2 hsec
    obtain ⟨hwd, _, _, hlay⟩ := staged_after_secondary lib lib1 lib2 s x _ hm hbo1 hset hbo2 hsec
    refine ⟨?_, hwd, hlay⟩
    unfold Lib.GenerateHtml
    rw [hsec]
  · intro lib2 hsec
    obtain ⟨hwd, _, _, hlay⟩ := staged_after_secondary lib lib1 lib2 s x _ hm hbo1 hset hbo2 hsec
    refine ⟨?_, hwd, hlay, ?_⟩
    · unfold Lib.Format
      rw [hsec]
    · have h := hlay.1
      rw [show s + 4 + x.length = s + (4 + x.length) by omega, drop_take_shift,
        show 4 + x.length + 4 = 8 + x.length + ([] : List Byte).length by simp; omega, h]
      have hl1 : (Memory.putUint32Le x.length ++ x).length = 4 + x.length := by
        simp only [List.length_append, putUint32Le_length]
      simp only [scratchLayout, List.append_nil]
      rw [List.drop_append_eq_append_drop, hl1]
      simp [List.drop_eq_nil_of_le, hl1]
      rfl

/-! ## Repeated rendering -/

theorem int32_of_small (s : Nat) (hs : s < 2147483648) : int32 s = s := by
  unfold int32
  simp only []
  split <;> omega

theorem uint32_of_small (s : Nat) (hs : s < 2147483648) : uint32 s = s := by
  unfold uint32
  omega

theorem call_nonneg (wa : wasmApi) (m m1 : Memory) (ret : Nat)
    (hfun : wa.fun_ m = (.ok ret, m1)) (hr : 0 ≤ int32 ret) :
    wa.call m = (.ok (uint32 ret), m1) := by
  unfold wasmApi.call
  rw [hfun]
  simp only []
  rw [if_neg (by omega)]

/-- A `buffer_offset` that reports `s` and leaves the memory as it is makes
`bufferOffset` return `s` and leave the `Lib` as it is. -/
theorem bufferOffset_fixed (st : Lib) (s : Nat) (hs : s < 2147483648)
    (hbo : ∀ m, st.apiBufferOffset.fun_ m = (.ok s, m)) : st.bufferOffset = (.ok s, st) := by
  have hcall := call_nonneg st.apiBufferOffset st.memory st.memory s (hbo st.memory)
    (by rw [int32_of_small s hs]; omega)
  rw [uint32_of_small s hs] at hcall
  unfold Lib.bufferOffset
  rw [hcall]

theorem SetInputTmd_fits (st : Lib) (s : Nat) (x : List Byte)
    (hm : st.memory.length < 4294967296) (hbo : st.bufferOffset = (.ok s, st))
    (hfit : s + 4 + x.length ≤ st.memory.length) :
    st.SetInputTmd x = (.ok (),
      { st with memory := st.memory.copyAt s (Memory.putUint32Le x.length ++ x),
                inputTmdDataLength := x.length }) := by
  unfold Lib.SetInputTmd
  rw [hbo]
  simp only []
  rw [writeData_ok st.memory s x hm hfit, Nat.mod_eq_of_lt (by omega)]

theorem writeSecondary_fits (st : Lib) (s len : Nat) (p : List Byte)
    (hm : st.memory.length < 4294967296) (hlen : st.inputTmdDataLength = len)
    (hbo : st.bufferOffset = (.ok s, st))
    (hfit : s + 4 + len + 4 + p.length ≤ st.memory.length) :
    st.writeSecondary p = (.ok (),
      { st with memory :=
          st.memory.copyAt (s + 4 + len) (Memory.putUint32Le p.length ++ p) }) := by
  have hoff : (s + (4 + st.inputTmdDataLength) % 4294967296) % 4294967296 = s + 4 + len := by
    rw [hlen]
    omega
  unfold Lib.writeSecondary
  rw [hbo]
  simp only [hoff]
  rw [writeData_ok st.memory (s + 4 + len) p hm hfit]

/-- `GenerateHtmlFromTmd` on a state whose memory has room for the layout of
`x` and the encoded options at the fixed scratch offset `s`: the exported
function is invoked on the memory with that layout written at `s`, and the
result is what it and `readData` return there. -/
theorem GenerateHtmlFromTmd_fits (st : Lib) (s : Nat) (x : List Byte) (o : HtmlGenOptions)
    (hs : s < 2147483648) (hbo : ∀ m, st.apiBufferOffset.fun_ m = (.ok s, m))
    (hm : st.memory.length < 4294967296)
    (hfit : s + 8 + x.length + (makeGenOptionsData o).length ≤ st.memory.length) :
    st.GenerateHtmlFromTmd x o =
      ((st.apiTmdToHtml.callAndRead
          (st.memory.copyAt s (scratchLayout x (makeGenOptionsData o)))).1,
       { st with
          memory := (st.apiTmdToHtml.callAndRead
            (st.memory.copyAt s (scratchLayout x (makeGenOptionsData o)))).2,
          inputTmdDataLength := x.length }) := by
  have hl1 : (Memory.putUint32Le x.length ++ x).length = 4 + x.length := by
    simp only [List.length_append, putUint32Le_length]
  have hb0 := bufferOffset_fixed st s hs hbo
  have hset := SetInputTmd_fits st s x hm hb0 (by omega)
  have hsz1 : (st.memory.copyAt s (Memory.putUint32Le x.length ++ x)).length = st.memory.length :=
    copyAt_length _ _ _ (by omega)
  have hb1 := bufferOffset_fixed
    { st with memory := st.memory.copyAt s (Memory.putUint32Le x.length ++ x),
              inputTmdDataLength := x.length } s hs hbo
  have hsec := writeSecondary_fits _ s x.length (makeGenOptionsData o)
    (by simp only [hsz1]; exact hm) rfl hb1 (by simp only [hsz1]; omega)
  have hadj := copyAt_adjacent st.memory s (Memory.putUint32Le x.length ++ x)
    (Memory.putUint32Le (makeGenOptionsData o).length ++ makeGenOptionsData o)
    (by simp only [List.length_append, putUint32Le_length]; omega)
  rw [hl1] at hadj
  unfold Lib.GenerateHtmlFromTmd
  rw [hset]
  simp only []
  unfold Lib.GenerateHtml
  rw [hsec]
  simp only [Lib.callAndRead]
  rw [show s + 4 + x.length = s + (4 + x.length) by omega, hadj]
  simp only [scratchLayout, List.append_assoc]

/-- The layout written at `s` is read back from the region at `s`. -/
theorem scratchLayout_region (m : Memory) (s : Nat) (x p : List Byte)
    (hfit : s + 8 + x.length + p.length ≤ m.length) :
    ((m.copyAt s (scratchLayout x p)).drop s).take (8 + x.length + p.length)
      = scratchLayout x p := by
  have hl : (scratchLayout x p).length = 8 + x.length + p.length := by
    simp only [scratchLayout, List.length_append, putUint32Le_length]; omega
  have := copyAt_region m s (scratchLayout x p) (by omega)
  rw [hl] at this
  exact this

/-- The memory on which `GenerateHtmlFromTmd` invokes the exported function. -/
theorem staged_memory_fits (st : Lib) (s : Nat) (x p : List Byte)
    (hs : s < 2147483648) (hbo : ∀ m, st.apiBufferOffset.fun_ m = (.ok s, m))
    (hm : st.memory.length < 4294967296)
    (hfit : s + 8 + x.length + p.length ≤ st.memory.length) :
    ((st.SetInputTmd x).2.writeSecondary p).2.memory
      = st.memory.copyAt s (scratchLayout x p) := by
  have hl1 : (Memory.putUint32Le x.length ++ x).length = 4 + x.length := by
    simp only [List.length_append, putUint32Le_length]
  have hb0 := bufferOffset_fixed st s hs hbo
  have hset := SetInputTmd_fits st s x hm hb0 (by omega)
  have hsz1 : (st.memory.copyAt s (Memory.putUint32Le x.length ++ x)).length = st.memory.length :=
    copyAt_length _ _ _ (by omega)
  have hb1 := bufferOffset_fixed
    { st with memory := st.memory.copyAt s (Memory.putUint32Le x.length ++ x),
              inputTmdDataLength := x.length } s hs hbo
  have hsec := writeSecondary_fits _ s x.length p
    (by simp only [hsz1]; exact hm) rfl hb1 (by simp only [hsz1]; omega)
  have hadj := copyAt_adjacent st.memory s (Memory.putUint32Le x.length ++ x)
    (Memory.putUint32Le p.length ++ p)
    (by simp only [List.length_append, putUint32Le_length]; omega)
  rw [hl1] at hadj
  rw [hset]
  simp only []
  rw [hsec]
  simp only []
  rw [show s + 4 + x.length = s + (4 + x.length) by omega, hadj]
  simp only [scratchLayout, List.append_assoc]

/-- With a module whose result is a function `F` of the scratch region, every
call on a state with room for the layout returns `F x p`. -/
theorem GenerateHtmlFromTmd_result (st : Lib) (s : Nat)
    (F : List Byte → List Byte → Outcome (Option (List Byte)))
    (hs : s < 2147483648) (hbo : ∀ m, st.apiBufferOffset.fun_ m = (.ok s, m))
    (hdet : ∀ m x p, m.length < 4294967296 →
      (m.drop s).take (8 + x.length + p.length) = scratchLayout x p →
      (st.apiTmdToHtml.callAndRead m).1 = F x p)
    (x : List Byte) (o : HtmlGenOptions)
    (hm : st.memory.length < 4294967296)
    (hfit : s + 8 + x.length + (makeGenOptionsData o).length ≤ st.memory.length) :
    (st.GenerateHtmlFromTmd x o).1 = F x (makeGenOptionsData o) := by
  have hl : (scratchLayout x (makeGenOptionsData o)).length
      = 8 + x.length + (makeGenOptionsData o).length := by
    simp only [scratchLayout, List.length_append, putUint32Le_length]; omega
  rw [GenerateHtmlFromTmd_fits st s x o hs hbo hm hfit]
  exact hdet _ x _ (by rw [copyAt_length _ _ _ (by omega)]; exact hm)
    (scratchLayout_region st.memory s x _ hfit)

/-- With a module that never shrinks the memory, each of `k` consecutive calls
returns `F x p`. -/
theorem repeatGenerateHtmlFromTmd_all (bo th : wasmApi) (s : Nat)
    (F : List Byte → List Byte → Outcome (Option (List Byte)))
    (hs : s < 2147483648) (hbo : ∀ m, bo.fun_ m = (.ok s, m))
    (hdet : ∀ m x p, m.length < 4294967296 →
      (m.drop s).take (8 + x.length + p.length) = scratchLayout x p →
      (th.callAndRead m).1 = F x p)
    (hgrow : ∀ m, m.length < 4294967296 →
      m.length ≤ (th.callAndRead m).2.length ∧ (th.callAndRead m).2.length < 4294967296)
    (x : List Byte) (o : HtmlGenOptions) (k : Nat) :
    ∀ st : Lib, st.apiBufferOffset = bo → st.apiTmdToHtml = th →
      st.memory.length < 4294967296 →
      s + 8 + x.length + (makeGenOptionsData o).length ≤ st.memory.length →
      ∀ r ∈ st.repeatGenerateHtmlFromTmd x o k, r = F x (makeGenOptionsData o) := by
  induction k with
  | zero =>
    intro st _ _ _ _ r hr
    simp [Lib.repeatGenerateHtmlFromTmd] at hr
  | succ k ih =>
    intro st hb ht hm hfit r hr
    have hl : (scratchLayout x (makeGenOptionsData o)).length
        = 8 + x.length + (makeGenOptionsData o).length := by
      simp only [scratchLayout, List.length_append, putUint32Le_length]; omega
    have hsz : (st.memory.copyAt s (scratchLayout x (makeGenOptionsData o))).length
        = st.memory.length := copyAt_length _ _ _ (by omega)
    have hres := GenerateHtmlFromTmd_result st s F hs (by rw [hb]; exact hbo)
      (by rw [ht]; exact hdet) x o hm hfit
    have hstep := GenerateHtmlFromTmd_fits st s x o hs (by rw [hb]; exact hbo) hm hfit
    have hg := hgrow (st.memory.copyAt s (scratchLayout x (makeGenOptionsData o)))
      (by rw [hsz]; exact hm)
    rw [hsz, ← ht] at hg
    simp only [Lib.repeatGenerateHtmlFromTmd, List.mem_cons] at hr
    rcases hr with hr | hr
    · rw [hr, hres]
    · refine ih (st.GenerateHtmlFromTmd x o).2 ?_ ?_ ?_ ?_ r hr
      · rw [hstep]; exact hb
      · rw [hstep]; exact ht
      · rw [hstep]; exact hg.2
      · rw [hstep]; simp only []; omega

/-- `readData` on a region that starts with the length header of `x` and `x`
itself returns `x`, or the absent result when `x` is empty. -/
theorem readData_of_region (m : Memory) (o : Nat) (x rest : List Byte)
    (hm : m.length < 4294967296)
    (hreg : (m.drop o).take (4 + x.length + rest.length)
      = Memory.putUint32Le x.length ++ x ++ rest) :
    readData m o = .ok (if x = [] then none else some x) := by
  have hlen := congrArg List.length hreg
  simp only [List.length_take, List.length_drop, List.length_append, putUint32Le_length] at hlen
  have hfit : o + 4 + x.length + rest.length ≤ m.length := by omega
  have hreg1 : (m.drop o).take (4 + x.length) = Memory.putUint32Le x.length ++ x := by
    have := congrArg (List.take (4 + x.length)) hreg
    rw [List.take_take, Nat.min_eq_left (by omega),
      List.take_left' (by simp only [List.length_append, putUint32Le_length])] at this
    exact this
  obtain ⟨hhd, hpay⟩ := region_header m o _ x (putUint32Le_length _) hreg1
  have hval : Memory.leUint32 ((m.drop o).take 4) = x.length := by
    rw [hhd]; exact leUint32_putUint32Le _ (by omega)
  by_cases hx : x = []
  · subst hx
    simp only [if_true]
    exact readData_zero m o (by omega) (by rw [hval]; rfl)
  · have hpos : 0 < x.length := List.length_pos.mpr hx
    simp only [hx, if_false]
    rw [readData_payload m o hm (by rw [hval]; exact hpos) (by rw [hval]; omega), hval, hpay]

theorem callAndRead_of_call (wa : wasmApi) (m m1 : Memory) (off : Nat)
    (h : wa.call m = (.ok off, m1)) (out : Option (List Byte)) (hrd : readData m1 off = .ok out) :
    wa.callAndRead m = (.ok out, m1) := by
  unfold wasmApi.callAndRead
  rw [h]
  simp only []
  rw [hrd]

theorem callAndRead_memory_of_call (wa : wasmApi) (m m1 : Memory) (off : Nat)
    (h : wa.call m = (.ok off, m1)) : (wa.callAndRead m).2 = m1 := by
  unfold wasmApi.callAndRead
  rw [h]
  simp only []
  split <;> rfl

theorem echoApi_call (name : String) (s : Nat) (hs : s < 2147483648) (m : Memory) :
    (echoApi name s).call m = (.ok s, m) := by
  have hcall := call_nonneg (echoApi name s) m m s rfl (by rw [int32_of_small s hs]; omega)
  rw [uint32_of_small s hs] at hcall
  exact hcall

theorem echoApi_deterministic (name : String) (s : Nat) (hs : s < 2147483648)
    (m : Memory) (x p : List Byte) (hm : m.length < 4294967296)
    (hreg : (m.drop s).take (8 + x.length + p.length) = scratchLayout x p) :
    ((echoApi name s).callAndRead m).1 = .ok (if x = [] then none else some x) := by
  have hrd := readData_of_region m s x (Memory.putUint32Le p.length ++ p) hm
    (by
      rw [show 4 + x.length + (Memory.putUint32Le p.length ++ p).length
          = 8 + x.length + p.length by
        simp only [List.length_append, putUint32Le_length]; omega, hreg, scratchLayout]
      simp only [List.append_assoc])
  rw [callAndRead_of_call _ m m s (echoApi_call name s hs m) _ hrd]

theorem echoApi_memory (name : String) (s : Nat) (hs : s < 2147483648) (m : Memory) :
    ((echoApi name s).callAndRead m).2 = m :=
  callAndRead_memory_of_call _ m m s (echoApi_call name s hs m)

/-- C9. Repeated rendering is stable.  Take the module as a deterministic
function of the scratch region that reports a fixed scratch offset `s`:
`buffer_offset` returns `s` and leaves the memory as it is, the result read
back after `tmd_to_html` is a function `F` of the input and the payload staged
at `s`, and the module never shrinks the memory nor grows it to `2^32` bytes.
Then for any two states of the instance whose memory has room for the staged
bytes, whatever was staged, rendered or reformatted before,
`GenerateHtmlFromTmd x o` stages the same bytes at `s` and returns the same
result; and each of any number of consecutive calls returns the result of the
first, hence output of the same byte length. -/
theorem repeated_rendering_stable (bo th : wasmApi) (s : Nat)
    (F : List Byte → List Byte → Outcome (Option (List Byte)))
    (hs : s < 2147483648) (hbo : ∀ m, bo.fun_ m = (.ok s, m))
    (hdet : ∀ m x p, m.length < 4294967296 →
      (m.drop s).take (8 + x.length + p.length) = scratchLayout x p →
      (th.callAndRead m).1 = F x p)
    (hgrow : ∀ m, m.length < 4294967296 →
      m.length ≤ (th.callAndRead m).2.length ∧ (th.callAndRead m).2.length < 4294967296)
    (x : List Byte) (o : HtmlGenOptions) :
    (∀ st1 st2 : Lib,
      st1.apiBufferOffset = bo → st1.apiTmdToHtml = th →
      st2.apiBufferOffset = bo → st2.apiTmdToHtml = th →
      st1.memory.length < 4294967296 → st2.memory.length < 4294967296 →
      s + 8 + x.length + (makeGenOptionsData o).length ≤ st1.memory.length →
      s + 8 + x.length + (makeGenOptionsData o).length ≤ st2.memory.length →
      (st1.GenerateHtmlFromTmd x o).1 = (st2.GenerateHtmlFromTmd x o).1 ∧
      (((st1.SetInputTmd x).2.writeSecondary (makeGenOptionsData o)).2.memory.drop s).take
          (8 + x.length + (makeGenOptionsData o).length)
        = scratchLayout x (makeGenOptionsData o) ∧
      (((st2.SetInputTmd x).2.writeSecondary (makeGenOptionsData o)).2.memory.drop s).take
          (8 + x.length + (makeGenOptionsData o).length)
        = scratchLayout x (makeGenOptionsData o)) ∧
    (∀ (st : Lib) (k : Nat),
      st.apiBufferOffset = bo → st.apiTmdToHtml = th →
      st.memory.length < 4294967296 →
      s + 8 + x.length + (makeGenOptionsData o).length ≤ st.memory.length →
      ∀ r ∈ st.repeatGenerateHtmlFromTmd x o k, r = (st.GenerateHtmlFromTmd x o).1) := by
  constructor
  · intro st1 st2 hb1 ht1 hb2 ht2 hm1 hm2 hfit1 hfit2
    refine ⟨?_, ?_, ?_⟩
    · rw [GenerateHtmlFromTmd_result st1 s F hs (by rw [hb1]; exact hbo)
          (by rw [ht1]; exact hdet) x o hm1 hfit1,
        GenerateHtmlFromTmd_result st2 s F hs (by rw [hb2]; exact hbo)
          (by rw [ht2]; exact hdet) x o hm2 hfit2]
    · rw [staged_memory_fits st1 s x _ hs (by rw [hb1]; exact hbo) hm1 hfit1]
      exact scratchLayout_region st1.memory s x _ hfit1
    · rw [staged_memory_fits st2 s x _ hs (by rw [hb2]; exact hbo) hm2 hfit2]
      exact scratchLayout_region st2.memory s x _ hfit2
  · intro st k hb ht hm hfit r hr
    rw [GenerateHtmlFromTmd_result st s F hs (by rw [hb]; exact hbo)
      (by rw [ht]; exact hdet) x o hm hfit]
    exact repeatGenerateHtmlFromTmd_all bo th s F hs hbo hdet hgrow x o k st hb ht hm hfit r hr

set_option maxRecDepth 100000 in
theorem repeated_rendering_stable_witness :
    ((echoLib 2 (List.replicate 160 0)).GenerateHtmlFromTmd
        (ascii "foo foo ") ⟨ascii "html", [], [], false⟩).1
      = (({ echoLib 2 (List.replicate 200 9) with inputTmdDataLength := 77 } : Lib).GenerateHtmlFromTmd
        (ascii "foo foo ") ⟨ascii "html", [], [], false⟩).1 :=
  ((repeated_rendering_stable (echoApi "buffer_offset" 2) (echoApi "tmd_to_html" 2) 2
    (fun x _ => .ok (if x = [] then none else some x)) (by decide) (fun _ => rfl)
    (fun m x p hm hreg => echoApi_deterministic "tmd_to_html" 2 (by decide) m x p hm hreg)
    (fun m hm => by rw [echoApi_memory "tmd_to_html" 2 (by decide) m]; exact ⟨Nat.le_refl _, hm⟩)
    (ascii "foo foo ") ⟨ascii "html", [], [], false⟩).1
    (echoLib 2 (List.replicate 160 0))
    { echoLib 2 (List.replicate 200 9) with inputTmdDataLength := 77 }
    rfl rfl rfl rfl (by decide) (by decide) (by decide) (by decide)).1

set_option maxRecDepth 100000 in
theorem composed_call_layout_witness :
    StagedLayout (List.replicate 160 0)
      ((echoLib 2 (List.replicate 160 0)).SetInputTmd (ascii "foo")).2.memory
      ((((echoLib 2 (List.replicate 160 0)).SetInputTmd (ascii "foo")).2.writeSecondary
        (makeGenOptionsData ⟨ascii "html", [], [], false⟩)).2.memory)
      2 (ascii "foo") (makeGenOptionsData ⟨ascii "html", [], [], false⟩) :=
  ((composed_call_layout (echoLib 2 (List.replicate 160 0))
    ((echoLib 2 (List.replicate 160 0)).SetInputTmd (ascii "foo")).2 2 (ascii "foo")
    (by decide) rfl rfl rfl).1 ⟨ascii "html", [], [], false⟩
    (((echoLib 2 (List.replicate 160 0)).SetInputTmd (ascii "foo")).2.writeSecondary
        (makeGenOptionsData ⟨ascii "html", [], [], false⟩)).2 rfl).2.2

/-! ## The staged-input length -/

/-- A region that lies before a copy is not altered by it. -/
theorem copyAt_region_before (m : Memory) (off : Nat) (v : List Byte) (a k : Nat)
    (h : off + v.length ≤ m.length) (hak : a + k ≤ off) :
    ((m.copyAt off v).drop a).take k = (m.drop a).take k := by
  apply List.ext_get?
  intro i
  simp only [List.get?_eq_getElem?, List.getElem?_take, List.getElem?_drop]
  by_cases hi : i < k
  · simp only [hi, if_true]
    have := copyAt_get?_outside m off v h (a + i) (Or.inl (by omega))
    simpa only [List.get?_eq_getElem?] using this
  · simp only [hi, if_false]

theorem ReadUint32Le_copyAt_before (m : Memory) (off : Nat) (v : List Byte) (s : Nat)
    (h : off + v.length ≤ m.length) (hs : s + 4 ≤ off) :
    (m.copyAt off v).ReadUint32Le s = m.ReadUint32Le s := by
  simp only [Memory.ReadUint32Le, Memory.hasSize, copyAt_length m off v h,
    copyAt_region_before m off v s 4 h hs]

theorem ReadUint32Le_copyAt_header (m : Memory) (s v : Nat) (rest : List Byte)
    (h : s + 4 + rest.length ≤ m.length) (hv : v < 4294967296) :
    (m.copyAt s (Memory.putUint32Le v ++ rest)).ReadUint32Le s = some v := by
  have hl : (Memory.putUint32Le v ++ rest).length = 4 + rest.length := by
    simp only [List.length_append, putUint32Le_length]
  have hreg := copyAt_region m s (Memory.putUint32Le v ++ rest) (by omega)
  rw [hl] at hreg
  have h4 := (region_header _ s _ rest (putUint32Le_length v) hreg).1
  have hsz := copyAt_length m s (Memory.putUint32Le v ++ rest) (by omega)
  simp only [Memory.ReadUint32Le, Memory.hasSize, hsz, h4, leUint32_putUint32Le v hv]
  rw [if_pos (by simp only [decide_eq_true_eq]; omega)]

/-- A `SetInputTmd` that returns no error leaves the recorded length equal to
the length header at the scratch offset. -/
theorem SetInputTmd_ok_header (lib lib1 : Lib) (s : Nat) (x : List Byte)
    (hm : lib.memory.length < 4294967296) (hbo : lib.bufferOffset = (.ok s, lib))
    (hset : lib.SetInputTmd x = (.ok (), lib1)) :
    lib1.memory.ReadUint32Le s = some lib1.inputTmdDataLength := by
  obtain ⟨hfit, hlib1⟩ := SetInputTmd_ok lib lib1 s x hm hbo hset
  rw [hlib1]
  exact ReadUint32Le_copyAt_header lib.memory s x.length x (by omega) (by omega)

/-- A `SetInputTmd` whose header fits and whose payload does not returns an
error and keeps the recorded length, after it has overwritten the length
header at the scratch offset with the new length. -/
theorem SetInputTmd_payload_fails (st : Lib) (s : Nat) (d : List Byte)
    (hm : st.memory.length < 4294967296) (hbo : st.bufferOffset = (.ok s, st))
    (h4 : s + 4 ≤ st.memory.length) (hbig : st.memory.length < s + 4 + d.length) :
    (∃ e, (st.SetInputTmd d).1 = .error e) ∧
      (st.SetInputTmd d).2.inputTmdDataLength = st.inputTmdDataLength ∧
      (st.SetInputTmd d).2.memory.ReadUint32Le s = some (d.length % 4294967296) := by
  obtain ⟨hmem, herr⟩ := writeData_payload_fails st.memory s d hm h4 hbig
  unfold Lib.SetInputTmd
  rw [hbo]
  simp only []
  rcases hw : writeData st.memory s d with ⟨m, _ | err⟩
  · rw [hw] at herr
    cases herr
  · rw [hw] at hmem
    simp only [] at hmem
    simp only []
    refine ⟨⟨err, rfl⟩, ?_⟩
    rw [hmem]
    have := ReadUint32Le_copyAt_header st.memory s (d.length % 4294967296) [] (by simpa using h4)
      (Nat.mod_lt _ (by decide))
    simpa using this

/-- After a successful `SetInputTmd x`, a `SetInputTmd d` whose payload does
not fit returns an error and leaves the recorded length at `len x`, while the
length header at the scratch offset holds `len d`. -/
theorem staged_length_after_failure (lib : Lib) (s : Nat) (x d : List Byte)
    (hs : s < 2147483648) (hbo : ∀ m, lib.apiBufferOffset.fun_ m = (.ok s, m))
    (hm : lib.memory.length < 4294967296)
    (hfit : s + 4 + x.length ≤ lib.memory.length)
    (hbig : lib.memory.length < s + 4 + d.length) :
    (lib.SetInputTmd x).1 = .ok () ∧
    (lib.SetInputTmd x).2.inputTmdDataLength = x.length ∧
    (lib.SetInputTmd x).2.memory.ReadUint32Le s = some x.length ∧
    (∃ e, ((lib.SetInputTmd x).2.SetInputTmd d).1 = .error e) ∧
    ((lib.SetInputTmd x).2.SetInputTmd d).2.inputTmdDataLength = x.length ∧
    ((lib.SetInputTmd x).2.SetInputTmd d).2.memory.ReadUint32Le s
      = some (d.length % 4294967296) := by
  have hb0 := bufferOffset_fixed lib s hs hbo
  have hset := SetInputTmd_fits lib s x hm hb0 hfit
  have hhdr := SetInputTmd_ok_header lib _ s x hm hb0 hset
  have hsz : (lib.memory.copyAt s (Memory.putUint32Le x.length ++ x)).length
      = lib.memory.length :=
    copyAt_length _ _ _ (by simp only [List.length_append, putUint32Le_length]; omega)
  have hb1 := bufferOffset_fixed
    { lib with memory := lib.memory.copyAt s (Memory.putUint32Le x.length ++ x),
               inputTmdDataLength := x.length } s hs hbo
  have hfail := SetInputTmd_payload_fails _ s d
    (by simp only [hsz]; exact hm) hb1 (by simp only [hsz]; omega)
    (by simp only [hsz]; omega)
  rw [hset]
  exact ⟨rfl, rfl, hhdr, hfail.1, hfail.2.1, hfail.2.2⟩

theorem twoPageLib_length : twoPageLib.memory.length = 131072 := by
  simp only [twoPageLib, echoLib, List.length_replicate]

/-- C8 (failing input). On a memory of two pages with the scratch offset
`65536`, `SetInputTmd "foo "` succeeds and leaves the recorded length and the
header at the scratch offset both equal to `4`.  A following `SetInputTmd` of
`65536` bytes returns an error, since the payload does not fit, after
`writeData` has overwritten the header: the recorded length is still `4` and
the header at the scratch offset is `65536`. -/
theorem failed_SetInputTmd_overwrites_header :
    (twoPageLib.SetInputTmd (ascii "foo ")).1 = .ok () ∧
    (twoPageLib.SetInputTmd (ascii "foo ")).2.inputTmdDataLength = 4 ∧
    (twoPageLib.SetInputTmd (ascii "foo ")).2.memory.ReadUint32Le 65536 = some 4 ∧
    (∃ e, ((twoPageLib.SetInputTmd (ascii "foo ")).2.SetInputTmd
      (List.replicate 65536 97)).1 = .error e) ∧
    ((twoPageLib.SetInputTmd (ascii "foo ")).2.SetInputTmd
      (List.replicate 65536 97)).2.inputTmdDataLength = 4 ∧
    ((twoPageLib.SetInputTmd (ascii "foo ")).2.SetInputTmd
      (List.replicate 65536 97)).2.memory.ReadUint32Le 65536 = some 65536 := by
  have hx : (ascii "foo ").length = 4 := rfl
  have hd : (List.replicate 65536 (97 : Byte)).length % 4294967296 = 65536 := by
    rw [List.length_replicate]
  have h := staged_length_after_failure twoPageLib 65536 (ascii "foo ")
    (List.replicate 65536 97) (by decide) (fun _ => rfl)
    (by rw [twoPageLib_length]; decide) (by rw [twoPageLib_length, hx]; decide)
    (by rw [twoPageLib_length, List.length_replicate]; decide)
  rw [hx, hd] at h
  exact h


/-! ## The `uint32` sum `offset + 4` at the end of a full memory -/

theorem readData_payload_nowrap (m : Memory) (o : Nat) (ho : o + 4 < 4294967296)
    (hpos : 0 < Memory.leUint32 ((m.drop o).take 4))
    (h : o + 4 + Memory.leUint32 ((m.drop o).take 4) ≤ m.length) :
    readData m o =
      .ok (some ((m.drop (o + 4)).take (Memory.leUint32 ((m.drop o).take 4)))) := by
  have hmod : (o + 4) % 4294967296 = o + 4 := Nat.mod_eq_of_lt ho
  simp [readData, Memory.ReadUint32Le, Memory.Read, Memory.hasSize, hmod, h,
    show o + 4 ≤ m.length by omega, Nat.pos_iff_ne_zero.mp hpos]

theorem readData_payload_fails_nowrap (m : Memory) (o : Nat) (ho : o + 4 < 4294967296)
    (h4 : o + 4 ≤ m.length)
    (hpos : 0 < Memory.leUint32 ((m.drop o).take 4))
    (h : m.length < o + 4 + Memory.leUint32 ((m.drop o).take 4)) :
    ∃ e, readData m o = .error e := by
  have hmod : (o + 4) % 4294967296 = o + 4 := Nat.mod_eq_of_lt ho
  simp [readData, Memory.ReadUint32Le, Memory.Read, Memory.hasSize, hmod, h4,
    Nat.not_le.mpr h, Nat.pos_iff_ne_zero.mp hpos]

/-- On a memory of `2^32` bytes, `readData` at the last four bytes with a
header `L > 0` computes `memoryOffset + 4` as `0` and returns the first `L`
bytes of the memory, with no error. -/
theorem readData_wraps (m : Memory) (hn : m.length = 4294967296)
    (hpos : 0 < Memory.leUint32 ((m.drop 4294967292).take 4)) :
    readData m 4294967292 =
      .ok (some (m.take (Memory.leUint32 ((m.drop 4294967292).take 4)))) := by
  have hL := leUint32_lt ((m.drop 4294967292).take 4)
  have hmod : (4294967292 + 4) % 4294967296 = 0 := by decide
  simp only [readData, Memory.ReadUint32Le, Memory.Read, Memory.hasSize, hmod, hn,
    List.drop_zero]
  rw [if_pos (by decide)]
  simp only []
  rw [if_neg (Nat.pos_iff_ne_zero.mp hpos), if_pos (by simp only [decide_eq_true_eq]; omega)]

/-- C5 (amended). Result of `readData` on an arbitrary memory of size
`n ≤ 2^32`, the limit of 65536 pages: an error when the header range
`[o, o+4)` is not within the memory; otherwise, with `L` the little-endian
value of the four header bytes, the absent result when `L = 0`, exactly the
bytes `memory[o+4, o+4+L)` when `L > 0` and `o + 4 + L ≤ n`, and an error when
`L > 0` and `o + 4 + L > n`, unless `o + 4 = 2^32`, the header in the last four
bytes of a full memory.  A result that is not absent has length `L ≥ 1`. -/
theorem readData_spec (m : Memory) (o : Nat) (hm : m.length ≤ 4294967296) :
    (m.length < o + 4 → ∃ e, readData m o = .error e) ∧
    (o + 4 ≤ m.length →
      (Memory.leUint32 ((m.drop o).take 4) = 0 → readData m o = .ok none) ∧
      (0 < Memory.leUint32 ((m.drop o).take 4) →
        o + 4 + Memory.leUint32 ((m.drop o).take 4) ≤ m.length →
        readData m o =
          .ok (some ((m.drop (o + 4)).take (Memory.leUint32 ((m.drop o).take 4))))) ∧
      (0 < Memory.leUint32 ((m.drop o).take 4) →
        m.length < o + 4 + Memory.leUint32 ((m.drop o).take 4) →
        o + 4 ≠ 4294967296 →
        ∃ e, readData m o = .error e)) ∧
    (∀ out, readData m o = .ok (some out) →
      out.length = Memory.leUint32 ((m.drop o).take 4) ∧ 1 ≤ out.length) := by
  refine ⟨readData_header_fails m o, fun h4 => ⟨readData_zero m o h4, ?_, ?_⟩, ?_⟩
  · exact fun hpos h => readData_payload_nowrap m o (by omega) hpos h
  · exact fun hpos h hne => readData_payload_fails_nowrap m o (by omega) h4 hpos h
  · intro out hout
    by_cases h4 : o + 4 ≤ m.length
    · by_cases hz : Memory.leUint32 ((m.drop o).take 4) = 0
      · rw [readData_zero m o h4 hz] at hout
        cases hout
      · have hpos := Nat.pos_of_ne_zero hz
        by_cases hw : o + 4 = 4294967296
        · have ho : o = 4294967292 := by omega
          subst ho
          have hL := leUint32_lt ((m.drop 4294967292).take 4)
          rw [readData_wraps m (by omega) hpos] at hout
          injection hout with hout
          injection hout with hout
          subst hout
          have : (List.take (Memory.leUint32 ((m.drop 4294967292).take 4)) m).length
              = Memory.leUint32 ((m.drop 4294967292).take 4) := by
            simp only [List.length_take]; omega
          omega
        · by_cases hfit : o + 4 + Memory.leUint32 ((m.drop o).take 4) ≤ m.length
          · rw [readData_payload_nowrap m o (by omega) hpos hfit] at hout
            injection hout with hout
            injection hout with hout
            subst hout
            have : (List.take (Memory.leUint32 ((m.drop o).take 4))
                (List.drop (o + 4) m)).length
                = Memory.leUint32 ((m.drop o).take 4) := by
              simp only [List.length_take, List.length_drop]; omega
            omega
          · obtain ⟨e, he⟩ := readData_payload_fails_nowrap m o (by omega) h4 hpos (by omega)
            rw [he] at hout
            cases hout
    · obtain ⟨e, he⟩ := readData_header_fails m o (by omega)
      rw [he] at hout
      cases hout

theorem readData_spec_witness :
    readData [9, 2, 0, 0, 0, 7, 8, 9] 1 = .ok (some [7, 8]) := by
  have h := (readData_spec [9, 2, 0, 0, 0, 7, 8, 9] 1 (by decide)).2.1 (by decide)
  exact h.2.1 (by decide) (by decide)

/-- C5 (as stated, refuted). On a memory of `2^32` bytes whose last four bytes
hold the length `1`, `readData` at offset `2^32 - 4` has `L = 1 > 0` and
`o + 4 + L > n`, yet it returns the first byte of the memory with no error:
`memoryOffset + 4` is computed as `0`. -/
theorem readData_wraps_counterexample :
    (List.replicate 4294967292 (7 : Byte) ++ [1, 0, 0, 0]).length = 4294967296 ∧
    Memory.leUint32
      (((List.replicate 4294967292 (7 : Byte) ++ [1, 0, 0, 0]).drop 4294967292).take 4) = 1 ∧
    readData (List.replicate 4294967292 7 ++ [1, 0, 0, 0]) 4294967292 = .ok (some [7]) := by
  have hlen : (List.replicate 4294967292 (7 : Byte) ++ [1, 0, 0, 0]).length = 4294967296 := by
    rw [List.length_append, List.length_replicate]
    rfl
  have hdrop : (List.replicate 4294967292 (7 : Byte) ++ [1, 0, 0, 0]).drop 4294967292
      = [1, 0, 0, 0] := List.drop_left' (List.length_replicate _ _)
  have hL : Memory.leUint32
      (((List.replicate 4294967292 (7 : Byte) ++ [1, 0, 0, 0]).drop 4294967292).take 4) = 1 := by
    rw [hdrop]
    rfl
  have htake : (List.replicate 4294967292 (7 : Byte) ++ [1, 0, 0, 0]).take 1 = [7] := by
    rw [List.take_append_of_le_length (by rw [List.length_replicate]; decide),
      List.take_replicate]
    rfl
  refine ⟨hlen, hL, ?_⟩
  rw [readData_wraps _ hlen (by rw [hL]; decide), hL, htake]

theorem writeData_ok_nowrap (m : Memory) (o : Nat) (d : List Byte) (ho : o + 4 < 4294967296)
    (hd : d.length < 4294967296) (h : o + 4 + d.length ≤ m.length) :
    writeData m o d = (m.copyAt o (Memory.putUint32Le d.length ++ d), none) := by
  have hlen : (m.copyAt o (Memory.putUint32Le d.length)).length = m.length :=
    copyAt_length m o _ (by rw [putUint32Le_length]; omega)
  have hdm : d.length % 4294967296 = d.length := Nat.mod_eq_of_lt hd
  have hom : (o + 4) % 4294967296 = o + 4 := Nat.mod_eq_of_lt ho
  have hadj := copyAt_adjacent m o (Memory.putUint32Le d.length) d
    (by rw [putUint32Le_length]; omega)
  rw [putUint32Le_length] at hadj
  simp only [writeData, Memory.WriteUint32Le, Memory.Write, Memory.hasSize, hdm, hom]
  simp [hlen, hadj, show o + 4 ≤ m.length by omega, h]

/-- On a memory of `2^32` bytes, `writeData` at the last four bytes writes the
header there, computes `memoryOffset + 4` as `0`, writes the payload at
address `0` and returns no error. -/
theorem writeData_wraps (m : Memory) (d : List Byte) (hn : m.length = 4294967296)
    (hd : d.length ≤ 4294967296) :
    writeData m 4294967292 d =
      ((m.copyAt 4294967292 (Memory.putUint32Le (d.length % 4294967296))).copyAt 0 d,
        none) := by
  have hlen : (m.copyAt 4294967292 (Memory.putUint32Le (d.length % 4294967296))).length
      = 4294967296 := by
    rw [copyAt_length m _ _ (by rw [putUint32Le_length, hn]), hn]
  have hmod : (4294967292 + 4) % 4294967296 = 0 := by decide
  simp only [writeData, Memory.WriteUint32Le, Memory.Write, Memory.hasSize, hmod, hn]
  rw [if_pos (by decide)]
  simp only [hlen]
  rw [if_pos (by simp only [decide_eq_true_eq]; omega)]

theorem copyAt_zero_take (m : Memory) (v : List Byte) :
    (m.copyAt 0 v).take v.length = v := by
  simp [Memory.copyAt]

/-- C6 (failing input). On a memory of `2^32` bytes, `writeData` at offset
`2^32 - 4` with the one-byte payload `[1]` has `o + 4 + len d = 2^32 + 1 > n`,
yet it returns no error and the payload is written at address `0`. -/
theorem writeData_wraps_at_full_memory :
    (List.replicate 4294967296 (0 : Byte)).length = 4294967296 ∧
    (writeData (List.replicate 4294967296 0) 4294967292 [1]).2 = none ∧
    (writeData (List.replicate 4294967296 0) 4294967292 [1]).1.take 1 = [1] := by
  have hlen : (List.replicate 4294967296 (0 : Byte)).length = 4294967296 :=
    List.length_replicate _ _
  refine ⟨hlen, ?_, ?_⟩
  · rw [writeData_wraps _ [1] hlen (by decide)]
  · rw [writeData_wraps _ [1] hlen (by decide)]
    exact copyAt_zero_take _ [1]

/-- On a memory of `2^32` bytes with `s + 4 + len x = 2^32`, `SetInputTmd x`
succeeds, the `uint32` sum `s + 4 + len x` is computed as `0`, and the
secondary write succeeds at address `0`. -/
theorem composed_call_wraps (lib : Lib) (s : Nat) (x p : List Byte)
    (hs : s < 2147483648) (hbo : ∀ m, lib.apiBufferOffset.fun_ m = (.ok s, m))
    (hn : lib.memory.length = 4294967296) (hx : s + 4 + x.length = 4294967296)
    (hp : 4 + p.length < 4294967296) :
    (lib.SetInputTmd x).1 = .ok () ∧
    ((lib.SetInputTmd x).2.writeSecondary p).1 = .ok () ∧
    ((lib.SetInputTmd x).2.writeSecondary p).2.memory.take (4 + p.length)
      = Memory.putUint32Le p.length ++ p := by
  have hl1 : (Memory.putUint32Le x.length ++ x).length = 4 + x.length := by
    simp only [List.length_append, putUint32Le_length]
  have hb0 := bufferOffset_fixed lib s hs hbo
  have hw := writeData_ok_nowrap lib.memory s x (by omega) (by omega) (by omega)
  have hset : lib.SetInputTmd x = (.ok (),
      { lib with memory := lib.memory.copyAt s (Memory.putUint32Le x.length ++ x),
                 inputTmdDataLength := x.length }) := by
    unfold Lib.SetInputTmd
    rw [hb0]
    simp only []
    rw [hw, Nat.mod_eq_of_lt (by omega)]
  have hsz1 : (lib.memory.copyAt s (Memory.putUint32Le x.length ++ x)).length = 4294967296 := by
    rw [copyAt_length _ _ _ (by omega), hn]
  have hb1 := bufferOffset_fixed
    { lib with memory := lib.memory.copyAt s (Memory.putUint32Le x.length ++ x),
               inputTmdDataLength := x.length } s hs hbo
  have hoff : (s + (4 + x.length) % 4294967296) % 4294967296 = 0 := by omega
  have hw2 := writeData_ok_nowrap (lib.memory.copyAt s (Memory.putUint32Le x.length ++ x)) 0 p
    (by decide) (by omega) (by omega)
  have hsec : Lib.writeSecondary
      { lib with memory := lib.memory.copyAt s (Memory.putUint32Le x.length ++ x),
                 inputTmdDataLength := x.length } p
      = (.ok (),
        { lib with
            memory := (lib.memory.copyAt s (Memory.putUint32Le x.length ++ x)).copyAt 0
              (Memory.putUint32Le p.length ++ p),
            inputTmdDataLength := x.length }) := by
    unfold Lib.writeSecondary
    rw [hb1]
    simp only [hoff]
    rw [hw2]
  rw [hset]
  simp only []
  rw [hsec]
  refine ⟨trivial, rfl, ?_⟩
  have := copyAt_zero_take (lib.memory.copyAt s (Memory.putUint32Le x.length ++ x))
    (Memory.putUint32Le p.length ++ p)
  rw [List.length_append, putUint32Le_length] at this
  exact this

theorem fullMemoryLib_length : fullMemoryLib.memory.length = 4294967296 := by
  simp only [fullMemoryLib, echoLib, List.length_replicate]

theorem fullMemoryInput_length : fullMemoryInput.length = 4294901756 := by
  unfold fullMemoryInput
  exact List.length_replicate _ _

theorem fullMemoryInput_fills : 65536 + 4 + fullMemoryInput.length = 4294967296 := by
  rw [fullMemoryInput_length]

set_option maxRecDepth 100000 in
/-- C2 (failing input). On a memory of `2^32` bytes with the scratch offset
`65536` and an input that fills the memory from there, `s + 4 + len x = 2^32`:
`SetInputTmd x` succeeds, the secondary write of `GenerateHtml` succeeds too,
and the encoded options with their length header are written at address `0`,
not at `s + 4 + len x`: the byte at address `0`, outside the scratch region,
changes from `0` to `126`. -/
theorem composed_call_wraps_at_full_memory :
    fullMemoryLib.memory.length = 4294967296 ∧
    65536 + 4 + fullMemoryInput.length = 4294967296 ∧
    (fullMemoryLib.SetInputTmd fullMemoryInput).1 = .ok () ∧
    ((fullMemoryLib.SetInputTmd fullMemoryInput).2.writeSecondary
      (makeGenOptionsData htmlOptions)).1 = .ok () ∧
    ((fullMemoryLib.SetInputTmd fullMemoryInput).2.writeSecondary
      (makeGenOptionsData htmlOptions)).2.memory.take
        (4 + (makeGenOptionsData htmlOptions).length)
      = Memory.putUint32Le (makeGenOptionsData htmlOptions).length
          ++ makeGenOptionsData htmlOptions ∧
    ((fullMemoryLib.SetInputTmd fullMemoryInput).2.writeSecondary
      (makeGenOptionsData htmlOptions)).2.memory.get? 0 = some 126 ∧
    fullMemoryLib.memory.get? 0 = some 0 := by
  have h := composed_call_wraps fullMemoryLib 65536 fullMemoryInput
    (makeGenOptionsData htmlOptions) (by decide) (fun _ => rfl)
    fullMemoryLib_length fullMemoryInput_fills (by decide)
  refine ⟨fullMemoryLib_length, fullMemoryInput_fills, h.1, h.2.1, h.2.2, ?_, ?_⟩
  · have h0 := congrArg (fun l => l.get? 0) h.2.2
    simp only [List.get?_eq_getElem?, List.getElem?_take] at h0
    rw [if_pos (by omega)] at h0
    rw [List.get?_eq_getElem?, h0]
    decide
  · simp only [fullMemoryLib, echoLib, List.get?_eq_getElem?]
    exact List.getElem?_replicate_of_lt (by decide)


/-- On a memory of `2^32` bytes with `s + 4 + len x = 2^32 - 4`, the secondary
write of `GenerateHtml` or `Format` calls `writeData` at offset `2^32 - 4`: it
succeeds, and the payload is written at address `0`. -/
theorem writeSecondary_wraps (lib : Lib) (s : Nat) (x p : List Byte)
    (hs : s < 2147483648) (hbo : ∀ m, lib.apiBufferOffset.fun_ m = (.ok s, m))
    (hn : lib.memory.length = 4294967296) (hx : s + 4 + x.length = 4294967292)
    (hp : p.length ≤ 4294967296) :
    (lib.SetInputTmd x).1 = .ok () ∧
    ((lib.SetInputTmd x).2.writeSecondary p).1 = .ok () ∧
    ((lib.SetInputTmd x).2.writeSecondary p).2.memory.take p.length = p := by
  have hb0 := bufferOffset_fixed lib s hs hbo
  have hw := writeData_ok_nowrap lib.memory s x (by omega) (by omega) (by omega)
  have hset : lib.SetInputTmd x = (.ok (),
      { lib with memory := lib.memory.copyAt s (Memory.putUint32Le x.length ++ x),
                 inputTmdDataLength := x.length }) := by
    unfold Lib.SetInputTmd
    rw [hb0]
    simp only []
    rw [hw, Nat.mod_eq_of_lt (by omega)]
  have hsz1 : (lib.memory.copyAt s (Memory.putUint32Le x.length ++ x)).length = 4294967296 := by
    rw [copyAt_length _ _ _
      (by simp only [List.length_append, putUint32Le_length]; omega), hn]
  have hb1 := bufferOffset_fixed
    { lib with memory := lib.memory.copyAt s (Memory.putUint32Le x.length ++ x),
               inputTmdDataLength := x.length } s hs hbo
  have hoff : (s + (4 + x.length) % 4294967296) % 4294967296 = 4294967292 := by omega
  have hw2 := writeData_wraps (lib.memory.copyAt s (Memory.putUint32Le x.length ++ x)) p hsz1 hp
  have hsec : Lib.writeSecondary
      { lib with memory := lib.memory.copyAt s (Memory.putUint32Le x.length ++ x),
                 inputTmdDataLength := x.length } p
      = (.ok (),
        { lib with
            memory := ((lib.memory.copyAt s (Memory.putUint32Le x.length ++ x)).copyAt
              4294967292 (Memory.putUint32Le (p.length % 4294967296))).copyAt 0 p,
            inputTmdDataLength := x.length }) := by
    unfold Lib.writeSecondary
    rw [hb1]
    simp only [hoff]
    rw [hw2]
  rw [hset]
  simp only []
  rw [hsec]
  exact ⟨trivial, rfl, copyAt_zero_take _ p⟩

set_option maxRecDepth 100000 in
/-- The wrap of `writeData` is reached through the public calls: on the full
memory with the scratch offset `65536`, after `SetInputTmd` of an input with
`s + 4 + len x = 2^32 - 4`, the secondary write of `GenerateHtml` succeeds and
the encoded options are written from address `0`. -/
theorem fullMemoryLib_GenerateHtml_wraps :
    65536 + 4 + (List.replicate 4294901752 (97 : Byte)).length = 4294967292 ∧
    (fullMemoryLib.SetInputTmd (List.replicate 4294901752 97)).1 = .ok () ∧
    ((fullMemoryLib.SetInputTmd (List.replicate 4294901752 97)).2.writeSecondary
      (makeGenOptionsData htmlOptions)).1 = .ok () ∧
    ((fullMemoryLib.SetInputTmd (List.replicate 4294901752 97)).2.writeSecondary
      (makeGenOptionsData htmlOptions)).2.memory.take (makeGenOptionsData htmlOptions).length
      = makeGenOptionsData htmlOptions := by
  have hx : 65536 + 4 + (List.replicate 4294901752 (97 : Byte)).length = 4294967292 := by
    rw [List.length_replicate]
  have h := writeSecondary_wraps fullMemoryLib 65536 (List.replicate 4294901752 97)
    (makeGenOptionsData htmlOptions) (by decide) (fun _ => rfl)
    fullMemoryLib_length hx (by decide)
  exact ⟨hx, h.1, h.2.1, h.2.2⟩

end Tmd
